import Mathlib

/-!
Verification of the storage-engine core of the cmu15445 repository:
LRU-K replacer, extendible hash table, buffer pool manager and B+ tree,
shallowly embedded from the C++ sources.

Machine integers: frame ids and page ids are C++ `int` values, modelled as
`Int`; `size_t` casts are modelled explicitly via reduction modulo 2^64.
Fallible code (throws, failed asserts) is modelled with `Except String`.
-/

namespace LRUK

/-- Error message thrown by RecordAccess and SetEvictable on an invalid frame id
(the C++ code throws the same string from both). -/
def invalidFrameMsg : String := "invalid frame_id in LRU_K RecordAccess.."

/-- `static_cast<size_t>(i)` for a signed value `i`: reduction modulo 2^64. -/
def castSizeT (i : Int) : Nat := (i % (2:Int)^64).toNat

/-- A node of the replacer's doubly linked list (`LRUKReplacer::LinkedNode`):
key (frame id), access count `frequency_`, `evictable_` flag.  The fields
`firstT`/`lastT` are ghost timestamps recording the first and most recent
access; the C++ code does not store them, they only serve to state the
specification's eviction order. -/
structure LinkedNode where
  key : Int
  frequency : Nat
  evictable : Bool
  firstT : Nat
  lastT : Nat
deriving DecidableEq, Repr

/-- Replacer state.  The C++ list `l_ .. m_ .. r_` is split at the sentinel
`m_` into the FIFO region (`fifo`, head = `l_->right_`, the most recently
admitted frame) and the LRU region (`lru`, head = `m_->right_`, the most
recently promoted/accessed frame).  `clock` is a ghost counter advanced on
every access. -/
structure RState where
  k : Nat
  numFrames : Nat
  currSize : Nat
  fifo : List LinkedNode
  lru : List LinkedNode
  fifoSize : Int
  lruSize : Int
  clock : Nat
deriving DecidableEq, Repr

/-- `LRUKReplacer::LRUKReplacer(num_frames, k)`. -/
def rInit (numFrames k : Nat) : RState :=
  { k := k, numFrames := numFrames, currSize := 0, fifo := [], lru := [],
    fifoSize := 0, lruSize := 0, clock := 0 }

/-- `LRUKReplacer::Size()` returns `lru_size_ + fifo_size_`. -/
def Size (s : RState) : Int := s.lruSize + s.fifoSize

/-- `map_.count(frame_id) == 1`: the node currently tracking frame `f`. -/
def getNode (s : RState) (f : Int) : Option LinkedNode :=
  (s.fifo ++ s.lru).find? (fun n => n.key == f)

/-- Replace one node (found via `map_`) by an updated copy, in place. -/
def replaceNode (l : List LinkedNode) (old new : LinkedNode) : List LinkedNode :=
  l.map (fun n => if n = old then new else n)

/-- `LRUKReplacer::RecordAccess(frame_id)` (version in
extendible_hash_table.cpp, lines 453-482): throws when
`static_cast<size_t>(frame_id) > replacer_size_`; bumps the access count of a
tracked frame and splices it to the LRU head when the count reaches `k_`;
otherwise admits a new node (count 1, not evictable) at the FIFO head. -/
def RecordAccess (s : RState) (f : Int) : Except String RState :=
  if castSizeT f > s.numFrames then .error invalidFrameMsg
  else
    match getNode s f with
    | some node =>
        let node' := { node with frequency := node.frequency + 1, lastT := s.clock }
        if node'.frequency ≥ s.k then
          .ok { s with fifo := s.fifo.erase node, lru := node' :: s.lru.erase node,
                       clock := s.clock + 1 }
        else
          .ok { s with fifo := replaceNode s.fifo node node',
                       lru := replaceNode s.lru node node', clock := s.clock + 1 }
    | none =>
        let node : LinkedNode :=
          { key := f, frequency := 1, evictable := false, firstT := s.clock, lastT := s.clock }
        .ok { s with currSize := s.currSize + 1, fifo := node :: s.fifo, clock := s.clock + 1 }

/-- `LRUKReplacer::SetEvictable(frame_id, set_evictable)` (version in
extendible_hash_table.cpp, lines 484-507): throws on
`static_cast<size_t>(frame_id) > replacer_size_`; returns unchanged for an
untracked frame or an unchanged flag; otherwise flips the flag and adjusts
`lru_size_` when `frequency_ >= 2`, else `fifo_size_` (the source compares
against the literal 2, not `k_`). -/
def SetEvictable (s : RState) (f : Int) (b : Bool) : Except String RState :=
  if castSizeT f > s.numFrames then .error invalidFrameMsg
  else
    match getNode s f with
    | none => .ok s
    | some node =>
        if (b && node.evictable) || (!b && !node.evictable) then .ok s
        else
          let node' := { node with evictable := b }
          let change : Int := if node.evictable then -1 else 1
          if node.frequency ≥ 2 then
            .ok { s with fifo := replaceNode s.fifo node node',
                         lru := replaceNode s.lru node node',
                         lruSize := s.lruSize + change }
          else
            .ok { s with fifo := replaceNode s.fifo node node',
                         lru := replaceNode s.lru node node',
                         fifoSize := s.fifoSize + change }

/-- `LRUKReplacer::Remove(frame_id)` (version in extendible_hash_table.cpp,
lines 509-526): silently ignores untracked or non-evictable frames; otherwise
unlinks the node and adjusts the counter selected by `frequency_ >= 2`. -/
def Remove (s : RState) (f : Int) : RState :=
  match getNode s f with
  | none => s
  | some node =>
      if node.evictable then
        if node.frequency ≥ 2 then
          { s with fifo := s.fifo.erase node, lru := s.lru.erase node,
                   lruSize := s.lruSize - 1 }
        else
          { s with fifo := s.fifo.erase node, lru := s.lru.erase node,
                   fifoSize := s.fifoSize - 1 }
      else s

/-- `LRUKReplacer::Evict(frame_id)` (version in extendible_hash_table.cpp,
lines 424-451): returns none when `Size() == 0`; otherwise walks the FIFO
region starting at `m_->left_` (its oldest node) towards `l_`, then the LRU
region starting at `r_->left_` (its oldest node) towards `m_`, and unlinks the
first evictable node found, adjusting the counter selected by
`frequency_ >= k_`. -/
def Evict (s : RState) : Option Int × RState :=
  if Size s = 0 then (none, s)
  else
    match s.fifo.reverse.find? (fun n => n.evictable) with
    | some node =>
        (some node.key,
         { s with fifo := s.fifo.erase node,
                  fifoSize := if node.frequency ≥ s.k then s.fifoSize else s.fifoSize - 1,
                  lruSize := if node.frequency ≥ s.k then s.lruSize - 1 else s.lruSize })
    | none =>
        match s.lru.reverse.find? (fun n => n.evictable) with
        | some node =>
            (some node.key,
             { s with lru := s.lru.erase node,
                      fifoSize := if node.frequency ≥ s.k then s.fifoSize else s.fifoSize - 1,
                      lruSize := if node.frequency ≥ s.k then s.lruSize - 1 else s.lruSize })
        | none => (none, s)

/-- A replacer API call, for quantifying over operation sequences. -/
inductive ROp where
  | access (f : Int)
  | setEvict (f : Int) (b : Bool)
  | evictOp
  | removeOp (f : Int)
deriving DecidableEq, Repr

/-- Apply one call.  A thrown exception propagates before any mutation, so the
replacer state is unchanged in that case. -/
def applyOp (s : RState) : ROp → RState
  | .access f => match RecordAccess s f with | .ok s' => s' | .error _ => s
  | .setEvict f b => match SetEvictable s f b with | .ok s' => s' | .error _ => s
  | .evictOp => (Evict s).2
  | .removeOp f => Remove s f

/-- Run a sequence of calls from a freshly constructed replacer. -/
def runOps (numFrames k : Nat) (ops : List ROp) : RState :=
  ops.foldl applyOp (rInit numFrames k)

/-- The number of currently tracked frames whose evictable flag is true. -/
def countEvictable (s : RState) : Nat :=
  ((s.fifo ++ s.lru).filter (fun n => n.evictable)).length

/-- A call uses a frame id inside `[0, num_frames)` (evict takes no frame). -/
def ValidOp (numFrames : Nat) : ROp → Prop
  | .access f => 0 ≤ f ∧ f < (numFrames : Int)
  | .setEvict f _ => 0 ≤ f ∧ f < (numFrames : Int)
  | .evictOp => True
  | .removeOp f => 0 ≤ f ∧ f < (numFrames : Int)

instance (n : Nat) (op : ROp) : Decidable (ValidOp n op) := by
  cases op <;> simp [ValidOp] <;> infer_instance

end LRUK

namespace LRUK

/-- The spec's FIFO-region victim choice: among evictable frames with access
count below `k`, the one with the oldest first access.

Modelled from the spec: section 4.2 defines the FIFO region as the frames with
access count `< k`, ordered by first access with the oldest at the tail, and
the eviction policy picks the oldest evictable frame there first. -/
def minByFirstT : List LinkedNode → Option LinkedNode
  | [] => none
  | n :: l =>
      match minByFirstT l with
      | none => some n
      | some m => some (if n.firstT ≤ m.firstT then n else m)

/-- The spec's LRU-region victim choice: among evictable frames with access
count at least `k`, the one with the oldest most-recent access.

Modelled from the spec: section 4.2 defines the LRU region as the frames with
access count `>= k`, ordered by most-recent access with the oldest at the
tail. -/
def minByLastT : List LinkedNode → Option LinkedNode
  | [] => none
  | n :: l =>
      match minByLastT l with
      | none => some n
      | some m => some (if n.lastT ≤ m.lastT then n else m)

/-- The eviction policy exactly as claimed by the spec: the oldest evictable
frame with access count `< k` (by first access); if none, the oldest evictable
frame with access count `>= k` (by most recent access); if no frame is
evictable at all, none.

Modelled from the spec: the claim of section 4.2, phrased over the tracked
frames with their ghost access timestamps. -/
def specVictim (s : RState) : Option Int :=
  let all := s.fifo ++ s.lru
  match minByFirstT (all.filter (fun n => n.evictable && decide (n.frequency < s.k))) with
  | some n => some n.key
  | none =>
      (minByLastT (all.filter (fun n => n.evictable && decide (s.k ≤ n.frequency)))).map
        (fun n => n.key)

/-- Evictable-node count of a node list. -/
def cntE (l : List LinkedNode) : Nat := l.countP (fun n => n.evictable)

/-- Counter consistency: the two size counters sum to the number of evictable
tracked frames, and tracked frame keys are distinct. -/
def SumInv (s : RState) : Prop :=
  ((s.fifo ++ s.lru).map (fun n => n.key)).Nodup ∧
  s.fifoSize + s.lruSize = (countEvictable s : Int)

/-- Region and ordering facts maintained by the list structure: FIFO nodes
have count `< k` and are ordered by first access (newest at the head), LRU
nodes have count `>= k` and are ordered by most recent access (newest at the
head), and all ghost timestamps lie below the ghost clock. -/
def OrdInv (s : RState) : Prop :=
  (∀ n ∈ s.fifo, n.frequency < s.k) ∧
  (∀ n ∈ s.lru, s.k ≤ n.frequency) ∧
  s.fifo.Pairwise (fun a b => b.firstT < a.firstT) ∧
  s.lru.Pairwise (fun a b => b.lastT < a.lastT) ∧
  (∀ n ∈ s.fifo ++ s.lru, n.firstT ≤ n.lastT ∧ n.lastT < s.clock)

end LRUK

/-- The spec scenario for the LRU-K replacer: k = 2, 3 frames, access sequence
1,2,3,1,2, then mark all three frames evictable. -/
def lrukScenario : List LRUK.ROp :=
  [.access 1, .access 2, .access 3, .access 1, .access 2,
   .setEvict 1 true, .setEvict 2 true, .setEvict 3 true]

namespace EHT

/-- `std::hash<int>` in libstdc++ is the identity cast to `size_t`. -/
def hashInt (k : Int) : Nat := LRUK.castSizeT k

/-- A hash bucket (`ExtendibleHashTable::Bucket`): insertion-ordered (key,
value) list, capacity `size_` and local depth `depth_`.

The bucket header is not under src/; `IsFull` is modelled from the spec
(section 3: each bucket carries an insertion-ordered list of pairs of bounded
capacity), as the list having reached the capacity. -/
structure Bucket where
  list : List (Int × Int)
  size : Nat
  depth : Nat
deriving DecidableEq, Repr

instance : Inhabited Bucket := ⟨⟨[], 0, 0⟩⟩

/-- `Bucket::Find`. -/
def bucketFind (b : Bucket) (key : Int) : Option Int :=
  (b.list.find? (fun p => p.1 == key)).map (fun p => p.2)

/-- `Bucket::IsFull` (modelled from the spec: bounded capacity). -/
def bucketIsFull (b : Bucket) : Bool := b.list.length == b.size

/-- `Bucket::Insert`: update in place on a key hit, reject when full,
otherwise append. -/
def bucketInsert (b : Bucket) (key v : Int) : Bool × Bucket :=
  if b.list.any (fun p => p.1 == key) then
    (true, { b with list := b.list.map (fun p => if p.1 == key then (p.1, v) else p) })
  else if bucketIsFull b then (false, b)
  else (true, { b with list := b.list ++ [(key, v)] })

/-- `Bucket::Remove`. -/
def bucketRemove (b : Bucket) (key : Int) : Bool × Bucket :=
  if b.list.any (fun p => p.1 == key) then
    (true, { b with list := b.list.eraseP (fun p => p.1 == key) })
  else (false, b)

/-- Hash table state (`ExtendibleHashTable<K,V>`): the C++ directory holds
`shared_ptr<Bucket>` values with aliasing, modelled as a bucket heap `store`
(ids are indices, allocation appends) and a directory of bucket ids. -/
structure HState where
  globalDepth : Nat
  bucketSize : Nat
  numBuckets : Nat
  store : List Bucket
  dir : List Nat
deriving DecidableEq, Repr

/-- `ExtendibleHashTable(bucket_size)`: global depth 0, one empty bucket of
depth 0, directory of size 1. -/
def hInit (bucketSize : Nat) : HState :=
  { globalDepth := 0, bucketSize := bucketSize, numBuckets := 1,
    store := [{ list := [], size := bucketSize, depth := 0 }], dir := [0] }

def getBucket (s : HState) (bid : Nat) : Bucket := s.store.getD bid default

/-- `IndexOf(key)`: `hash(key) & ((1 << global_depth_) - 1)`. -/
def IndexOf (s : HState) (key : Int) : Nat :=
  hashInt key &&& (2 ^ s.globalDepth - 1)

/-- `GetGlobalDepth()`. -/
def GetGlobalDepth (s : HState) : Nat := s.globalDepth

/-- `GetLocalDepth(dir_index)`. -/
def GetLocalDepth (s : HState) (dirIndex : Nat) : Nat :=
  (getBucket s (s.dir.getD dirIndex 0)).depth

/-- `GetNumBuckets()`. -/
def GetNumBuckets (s : HState) : Nat := s.numBuckets

/-- `Find(key, value)`. -/
def Find (s : HState) (key : Int) : Option Int :=
  let index := IndexOf s key
  if index ≥ s.dir.length then none
  else bucketFind (getBucket s (s.dir.getD index 0)) key

/-- `Remove(key)`. -/
def Remove (s : HState) (key : Int) : Bool × HState :=
  let index := IndexOf s key
  if index ≥ s.dir.length then (false, s)
  else
    let bid := s.dir.getD index 0
    let (ok, b') := bucketRemove (getBucket s bid) key
    (ok, { s with store := s.store.set bid b' })

/-- The directory rewrite of the split step: for each `i < cnt`, slot
`(i << cur_local_depth) + offset` is pointed at the first new bucket when `i`
is even, the second when odd. -/
def rewriteSlots (dir : List Nat) (cnt curLocalDepth offset bid1 bid2 : Nat) : List Nat :=
  (List.range cnt).foldl
    (fun d i => d.set ((i <<< curLocalDepth) + offset) (if i % 2 == 0 then bid1 else bid2)) dir

/-- The redistribution loop of the split step: reinsert each item of the old
bucket through the updated directory (the insert result is ignored, as in the
source). -/
def redistribute (s : HState) : List (Int × Int) → HState
  | [] => s
  | (k, v) :: rest =>
      let idx := IndexOf s k
      let bid := s.dir.getD idx 0
      let (_, b') := bucketInsert (getBucket s bid) k v
      redistribute { s with store := s.store.set bid b' } rest

/-- Message for exhausted fuel in the insert loop. -/
def fuelMsg : String := "insert loop fuel exhausted"

/-- Message for the UNREACHABLE branch of Insert. -/
def unreachableMsg : String := "insert error..."

/-- `Insert(key, value)`: the `while(true)` retry loop, with explicit fuel.
On a full target bucket: double the directory when local depth equals global
depth, split the bucket into two fresh buckets of depth `L+1`, rewrite the
directory slots, redistribute the old items, retry. -/
def insertLoop (fuel : Nat) (s : HState) (key v : Int) : Except String HState :=
  match fuel with
  | 0 => .error fuelMsg
  | fuel + 1 =>
      let index := IndexOf s key
      let bid := s.dir.getD index 0
      let b := getBucket s bid
      let (ok, b') := bucketInsert b key v
      if ok then .ok { s with store := s.store.set bid b' }
      else if bucketIsFull b then
        let curLocalDepth := b.depth
        let s1 :=
          if s.globalDepth == curLocalDepth then
            { s with globalDepth := s.globalDepth + 1, dir := s.dir ++ s.dir }
          else s
        let bid1 := s1.store.length
        let bid2 := s1.store.length + 1
        let bucketNew : Bucket := { list := [], size := s.bucketSize, depth := curLocalDepth + 1 }
        let cnt := 2 ^ (s1.globalDepth - curLocalDepth)
        let offset := index &&& (2 ^ curLocalDepth - 1)
        let s2 : HState :=
          { s1 with store := s1.store ++ [bucketNew, bucketNew],
                    dir := rewriteSlots s1.dir cnt curLocalDepth offset bid1 bid2,
                    numBuckets := s1.numBuckets + 1 }
        let s3 := redistribute s2 b.list
        insertLoop fuel s3 key v
      else .error unreachableMsg

/-- `Insert(key, value)` with fuel 64 (a bucket splits at most once per bit of
the 64-bit hash before the pending insert succeeds). -/
def Insert (s : HState) (key v : Int) : Except String HState :=
  insertLoop 64 s key v

end EHT

/-- The spec scenario for the extendible hash table: bucket capacity 2, insert
four items whose hashes are 0, 1, 2, 3 (integer keys hash to themselves). -/
def ehtRun : Except String EHT.HState := do
  let s1 ← EHT.Insert (EHT.hInit 2) 0 100
  let s2 ← EHT.Insert s1 1 101
  let s3 ← EHT.Insert s2 2 102
  EHT.Insert s3 3 103

namespace BPM

/-- A buffer pool page (`Page`): header fields plus an opaque payload token
(`data`); `ResetMemory` zeroes the payload, modelled as setting it to 0. -/
structure Page where
  pageId : Int
  pinCount : Int
  isDirty : Bool
  data : Nat
deriving DecidableEq, Repr

instance : Inhabited Page := ⟨⟨-1, 0, false, 0⟩⟩

/-- Buffer pool manager state (`BufferPoolManagerInstance`): the frame array,
the page directory (the extendible hash table of the same repository), the
free list, the LRU-K replacer, the page id allocator, and the disk manager
modelled as a map of written pages. -/
structure BState where
  poolSize : Nat
  pages : List Page
  pageTable : EHT.HState
  freeList : List Int
  repl : LRUK.RState
  nextPageId : Int
  disk : List (Int × Nat)
deriving Repr

/-- `pages_[f]` (valid `f` guaranteed by the caller in the source). -/
def pagesGet (pages : List Page) (f : Int) : Page := pages.getD f.toNat default

def pagesSet (pages : List Page) (f : Int) (p : Page) : List Page := pages.set f.toNat p

/-- `DiskManager::WritePage`. -/
def diskWrite (d : List (Int × Nat)) (id : Int) (v : Nat) : List (Int × Nat) :=
  if d.any (fun p => p.1 == id) then d.map (fun p => if p.1 == id then (p.1, v) else p)
  else d ++ [(id, v)]

/-- The disk contents at a page id. -/
def diskGet (d : List (Int × Nat)) (id : Int) : Option Nat :=
  (d.find? (fun p => p.1 == id)).map (fun p => p.2)

/-- `BufferPoolManagerInstance(pool_size, disk_manager, replacer_k, ...)`:
all frames initially on the free list (the directory bucket size constant
lives in the header, which is not under src/; its value does not affect any
claim, 4 is used here). -/
def bInit (poolSize replacerK : Nat) : BState :=
  { poolSize := poolSize, pages := List.replicate poolSize default,
    pageTable := EHT.hInit 4,
    freeList := (List.range poolSize).map (fun i => (i : Int)),
    repl := LRUK.rInit poolSize replacerK, nextPageId := 0, disk := [] }

/-- The common tail of `NewPgImp` once a victim frame is held: allocate the
page id, zero the frame and pin it with count 1, install it in the directory,
record an access and mark the frame non-evictable. -/
def newPgInstall (s2 : BState) (frameId : Int) : Except String (Option Int × BState) :=
  let id := s2.nextPageId
  let newPage : Page := { pageId := id, pinCount := 1, isDirty := false, data := 0 }
  match EHT.Insert s2.pageTable id frameId with
  | .error e => .error e
  | .ok pt2 =>
      match LRUK.RecordAccess s2.repl frameId with
      | .error e => .error e
      | .ok r2 =>
          match LRUK.SetEvictable r2 frameId false with
          | .error e => .error e
          | .ok r3 =>
              .ok (some id,
                   { s2 with nextPageId := s2.nextPageId + 1,
                             pages := pagesSet s2.pages frameId newPage,
                             pageTable := pt2, repl := r3 })

/-- `BufferPoolManagerInstance::NewPgImp(page_id)` (in the concatenated
extendible_hash_table.cpp, lines 247-277): pick the victim frame from the
back of the free list, or else ask the replacer to evict (writing back a
dirty victim first and removing it from the directory); then allocate a page
id, zero the frame, pin it with count 1, install it in the directory, record
an access and mark the frame non-evictable. -/
def NewPgImp (s : BState) : Except String (Option Int × BState) :=
  let sel : Option (Int × BState) :=
    if s.freeList.isEmpty then
      match LRUK.Evict s.repl with
      | (some frameId, r1) =>
          let victim := pagesGet s.pages frameId
          let s1 : BState :=
            if victim.isDirty then
              { s with repl := r1,
                       disk := diskWrite s.disk victim.pageId victim.data,
                       pages := pagesSet s.pages frameId { victim with isDirty := false } }
            else { s with repl := r1 }
          some (frameId, { s1 with pageTable := (EHT.Remove s1.pageTable victim.pageId).2 })
      | (none, _) => none
    else
      some (s.freeList.getLast?.getD 0, { s with freeList := s.freeList.dropLast })
  match sel with
  | none => .ok (none, s)
  | some (frameId, s2) => newPgInstall s2 frameId

/-- `BufferPoolManagerInstance::UnpinPgImp(page_id, is_dirty)` (in the
concatenated extendible_hash_table.cpp, lines 320-338): false when the page is
not resident or its pin count is non-positive; otherwise decrement the pin
count, mark the frame evictable when it reaches zero, and OR-merge the dirty
flag. -/
def UnpinPgImp (s : BState) (pageId : Int) (isDirty : Bool) : Except String (Bool × BState) :=
  match EHT.Find s.pageTable pageId with
  | none => .ok (false, s)
  | some idx =>
      let p := pagesGet s.pages idx
      if p.pinCount ≤ 0 then .ok (false, s)
      else
        let p1 := { p with pinCount := p.pinCount - 1 }
        let p2 := if isDirty then { p1 with isDirty := true } else p1
        if p1.pinCount = 0 then
          match LRUK.SetEvictable s.repl idx true with
          | .error e => .error e
          | .ok r1 => .ok (true, { s with pages := pagesSet s.pages idx p2, repl := r1 })
        else .ok (true, { s with pages := pagesSet s.pages idx p2 })

/-- `BufferPoolManagerInstance::AllocatePage()`. -/
def AllocatePage (s : BState) : Int × BState :=
  (s.nextPageId, { s with nextPageId := s.nextPageId + 1 })

end BPM

/-- A concrete one-frame buffer pool state: page 5 resident in frame 0 with
pin count 1, frame 0 tracked (not evictable) by the replacer. -/
def c9State : BPM.BState :=
  { poolSize := 1,
    pages := [{ pageId := 5, pinCount := 1, isDirty := false, data := 0 }],
    pageTable := { globalDepth := 0, bucketSize := 4, numBuckets := 1,
                   store := [{ list := [(5, 0)], size := 4, depth := 0 }], dir := [0] },
    freeList := [],
    repl := { k := 2, numFrames := 1, currSize := 1,
              fifo := [{ key := 0, frequency := 1, evictable := false, firstT := 0, lastT := 0 }],
              lru := [], fifoSize := 0, lruSize := 0, clock := 1 },
    nextPageId := 6, disk := [] }

namespace BPT

/-- A leaf page (`BPlusTreeLeafPage`): the live prefix of `array_` as a list
of (key, value) pairs, plus `parent_page_id_` and `next_page_id_`.  Keys and
values are integers (`GenericComparator` is integer order; RID values are
opaque tokens). -/
structure LeafNode where
  entries : List (Int × Int)
  parent : Int
  next : Int
deriving DecidableEq, Repr

/-- An internal page (`BPlusTreeInternalPage`): the live prefix of `array_`
as a list of (key, child page id) pairs; the key of entry 0 is an unused
sentinel (0 here, garbage in the C++ page). -/
structure InternalNode where
  entries : List (Int × Int)
  parent : Int
deriving DecidableEq, Repr

/-- A typed B+ tree page (`IsLeafPage` discriminates the two layouts). -/
inductive BNode where
  | leaf : LeafNode → BNode
  | internal : InternalNode → BNode
deriving DecidableEq, Repr

/-- Buffer-pool pin counts (page id to `pin_count_`); absent pages count 0. -/
abbrev PinMap := List (Int × Int)

def pinGet (pins : PinMap) (pid : Int) : Int :=
  (((pins.find? (fun p => p.1 == pid)).map (fun p => p.2))).getD 0

def pinSet (pins : PinMap) (pid : Int) (v : Int) : PinMap :=
  if pins.any (fun p => p.1 == pid) then
    pins.map (fun p => if p.1 == pid then (p.1, v) else p)
  else pins ++ [(pid, v)]

/-- The pin effect of `FetchPage` on a resident page. -/
def pinFetch (pins : PinMap) (pid : Int) : PinMap := pinSet pins pid (pinGet pins pid + 1)

/-- The pin effect of `UnpinPage` (no effect at pin count zero, where
`UnpinPgImp` fails). -/
def pinUnpin (pins : PinMap) (pid : Int) : PinMap :=
  if pinGet pins pid ≤ 0 then pins else pinSet pins pid (pinGet pins pid - 1)

/-- Tree state: the page pool (page id to node), `root_page_id_`, the buffer
pool id allocator, the two capacity parameters, and the buffer pool's pin
counts.  Page ids start at 1 (page 0 is the header page of the buffer pool,
which the tree never allocates).  `GetValue`, `Insert` and the leaf-only
path of `Remove` pair every `FetchPage` with an `UnpinPage` and never
consult a pin count, so they leave `pins` untouched (their net pin effect in
the source is zero); the rebalancing path of `Remove` is not pin-neutral and
tracks every `FetchPage` / `UnpinPage` / `DeletePage` explicitly. -/
structure Tree where
  pages : List (Int × BNode)
  rootPageId : Int
  nextPageId : Int
  leafMax : Nat
  internalMax : Nat
  pins : PinMap := []
deriving DecidableEq, Repr

/-- An empty B+ tree (`BPlusTree` constructor: `root_page_id_ = -1`). -/
def bptEmpty (leafMax internalMax : Nat) : Tree :=
  { pages := [], rootPageId := -1, nextPageId := 1,
    leafMax := leafMax, internalMax := internalMax }

def errMissingPage : String := "FetchPage on a page that is not in the pool"

def errAssert : String := "assert failed"

def errFuel : String := "recursion fuel exhausted"

def errType : String := "page reinterpreted at the wrong node type"

def errIter : String := "B+ tree index_iterator ++ out of range"

/-- `buffer_pool_manager_->FetchPage` for the tree: page lookup. -/
def lookup (t : Tree) (pid : Int) : Option BNode :=
  (t.pages.find? (fun p => p.1 == pid)).map (fun p => p.2)

/-- Write a page back (pages are mutated in place through pointers in the
source; every mutation is written through here immediately). -/
def setPage (t : Tree) (pid : Int) (n : BNode) : Tree :=
  { t with pages :=
      if t.pages.any (fun p => p.1 == pid) then
        t.pages.map (fun p => if p.1 == pid then (p.1, n) else p)
      else t.pages ++ [(pid, n)] }

/-- The page-store removal a successful `DeletePgImp` performs (page table /
replacer / free-list maintenance); the pin-count guard of `DeletePgImp` is in
`DeletePage` below. -/
def delPage (t : Tree) (pid : Int) : Tree :=
  { t with pages := t.pages.filter (fun p => p.1 != pid) }

/-- `buffer_pool_manager_->NewPage`: allocate the next page id. -/
def NewPage (t : Tree) : Int × Tree :=
  (t.nextPageId, { t with nextPageId := t.nextPageId + 1 })

def fetch (t : Tree) (pid : Int) : Except String BNode :=
  match lookup t pid with
  | none => .error errMissingPage
  | some n => .ok n

/-- `buffer_pool_manager_->DeletePage` (`DeletePgImp`): true when the page is
not resident; false - leaving the page in the pool - when its pin count is
nonzero; otherwise the page is freed. -/
def DeletePage (t : Tree) (pid : Int) : Bool × Tree :=
  match lookup t pid with
  | none => (true, t)
  | some _ => if pinGet t.pins pid ≠ 0 then (false, t) else (true, delPage t pid)

/-- The pin effect of `FetchPage` on the tree's buffer pool. -/
def tFetch (t : Tree) (pid : Int) : Tree := { t with pins := pinFetch t.pins pid }

/-- The pin effect of `UnpinPage` on the tree's buffer pool (the dirty flag
is not modelled). -/
def tUnpin (t : Tree) (pid : Int) : Tree := { t with pins := pinUnpin t.pins pid }

namespace LeafNode

def size (l : LeafNode) : Nat := l.entries.length

def KeyAt (l : LeafNode) (i : Nat) : Int := (l.entries.getD i (0, 0)).1

def ValueAt (l : LeafNode) (i : Nat) : Int := (l.entries.getD i (0, 0)).2

/-- `FindIndex`: the first position holding a key `>= key`, else the size. -/
def FindIndex (l : LeafNode) (key : Int) : Nat :=
  l.entries.findIdx (fun p => key ≤ p.1)

/-- `FindKey`: linear scan for an exact key. -/
def FindKey (l : LeafNode) (key : Int) : Option Int :=
  (l.entries.find? (fun p => p.1 == key)).map (fun p => p.2)

/-- `Insert`: place at the `FindIndex` position, shifting the tail. -/
def Insert (l : LeafNode) (key v : Int) : LeafNode :=
  { l with entries :=
      l.entries.take (FindIndex l key) ++ (key, v) :: l.entries.drop (FindIndex l key) }

/-- `InsertAfter`: append at the end. -/
def InsertAfter (l : LeafNode) (key v : Int) : LeafNode :=
  { l with entries := l.entries ++ [(key, v)] }

/-- `Remove`: erase the `FindIndex` position when it exists and holds exactly
`key` (the source returns early otherwise). -/
def Remove (l : LeafNode) (key : Int) : LeafNode :=
  let i := FindIndex l key
  if i < l.entries.length ∧ (l.entries.getD i (0, 0)).1 = key then
    { l with entries := l.entries.take i ++ l.entries.drop (i + 1) }
  else l

/-- `PopBack`. -/
def PopBack (l : LeafNode) : (Int × Int) × LeafNode :=
  (l.entries.getLast?.getD (0, 0), { l with entries := l.entries.dropLast })

/-- `PushFront`. -/
def PushFront (l : LeafNode) (kv : Int × Int) : LeafNode :=
  { l with entries := kv :: l.entries }

/-- `PopFront`. -/
def PopFront (l : LeafNode) : (Int × Int) × LeafNode :=
  (l.entries.headD (0, 0), { l with entries := l.entries.tail })

/-- `PushBack`. -/
def PushBack (l : LeafNode) (kv : Int × Int) : LeafNode :=
  { l with entries := l.entries ++ [kv] }

end LeafNode

namespace InternalNode

def size (n : InternalNode) : Nat := n.entries.length

def KeyAt (n : InternalNode) (i : Nat) : Int := (n.entries.getD i (0, 0)).1

def ValueAt (n : InternalNode) (i : Nat) : Int := (n.entries.getD i (0, 0)).2

def SetKeyAt (n : InternalNode) (i : Nat) (key : Int) : InternalNode :=
  { n with entries := n.entries.set i (key, (n.entries.getD i (0, 0)).2) }

/-- `FindIndex`: the first position `i >= 1` whose key is strictly greater
than `key`, else the size (and 1 on an empty page, as the loop never runs). -/
def FindIndex (n : InternalNode) (key : Int) : Nat :=
  1 + (n.entries.drop 1).findIdx (fun p => key < p.1)

/-- `Insert`: place at the `FindIndex` position, shifting the tail. -/
def Insert (n : InternalNode) (key v : Int) : InternalNode :=
  { n with entries :=
      n.entries.take (FindIndex n key) ++ (key, v) :: n.entries.drop (FindIndex n key) }

/-- `InsertAfter`: append at the end. -/
def InsertAfter (n : InternalNode) (key v : Int) : InternalNode :=
  { n with entries := n.entries ++ [(key, v)] }

/-- `SetValue0`: grow to size 1 if empty, then overwrite the value of entry 0
(its key slot stays the sentinel). -/
def SetValue0 (n : InternalNode) (v : Int) : InternalNode :=
  if n.entries.length = 0 then { n with entries := [(0, v)] }
  else { n with entries := n.entries.set 0 ((n.entries.getD 0 (0, 0)).1, v) }

/-- `RemoveByIndex`: erase the entry at a position, shifting the tail.

Modelled from the spec: the internal-page RemoveByIndex / PopBack / PushFront
/ PopFront / PushBack bodies are not under src/ (only their callers are);
they are modelled from spec section 4.4 following the leaf-page
implementations of the same names. -/
def RemoveByIndex (n : InternalNode) (i : Nat) : InternalNode :=
  { n with entries := n.entries.take i ++ n.entries.drop (i + 1) }

/-- Modelled from the spec: see `RemoveByIndex`. -/
def PopBack (n : InternalNode) : (Int × Int) × InternalNode :=
  (n.entries.getLast?.getD (0, 0), { n with entries := n.entries.dropLast })

/-- Modelled from the spec: see `RemoveByIndex`. -/
def PushFront (n : InternalNode) (kv : Int × Int) : InternalNode :=
  { n with entries := kv :: n.entries }

/-- Modelled from the spec: see `RemoveByIndex`. -/
def PopFront (n : InternalNode) : (Int × Int) × InternalNode :=
  (n.entries.headD (0, 0), { n with entries := n.entries.tail })

/-- Modelled from the spec: see `RemoveByIndex`. -/
def PushBack (n : InternalNode) (kv : Int × Int) : InternalNode :=
  { n with entries := n.entries ++ [kv] }

end InternalNode

def nodeSize : BNode → Nat
  | .leaf l => l.entries.length
  | .internal n => n.entries.length

def nodeParent : BNode → Int
  | .leaf l => l.parent
  | .internal n => n.parent

def setParent : BNode → Int → BNode
  | .leaf l, p => .leaf { l with parent := p }
  | .internal n, p => .internal { n with parent := p }

def isLeaf : BNode → Bool
  | .leaf _ => true
  | .internal _ => false

/-- `GetMinSize()` per node kind.

Modelled from the spec: b_plus_tree_page.cpp is not under src/; section 3 of
the spec fixes min size = ceil(max/2) for internal pages and
ceil((max-1)/2) = max/2 for leaf pages. -/
def nodeMinSize (t : Tree) : BNode → Nat
  | .leaf _ => t.leafMax / 2
  | .internal _ => (t.internalMax + 1) / 2

/-- `GetMaxSize()` per node kind (Init always stores the tree constants). -/
def nodeMaxSize (t : Tree) : BNode → Nat
  | .leaf _ => t.leafMax
  | .internal _ => t.internalMax

end BPT

namespace BPT

/-- `IsEmpty()`. -/
def IsEmpty (t : Tree) : Bool := t.rootPageId == -1

/-- The descent loop of `FindLeaf`, with fuel for the unmeasured loop. -/
def findLeafFrom : Nat → Tree → Int → Int → Except String (Int × LeafNode)
  | 0, _, _, _ => .error errFuel
  | fuel + 1, t, pid, key =>
      match lookup t pid with
      | none => .error errMissingPage
      | some (.leaf l) => .ok (pid, l)
      | some (.internal n) =>
          findLeafFrom fuel t (InternalNode.ValueAt n (InternalNode.FindIndex n key - 1)) key

/-- `FindLeaf(key)`: descend from the root by `FindIndex`, landing on the
owning leaf. -/
def FindLeaf (t : Tree) (key : Int) : Except String (Int × LeafNode) :=
  findLeafFrom (t.pages.length + 1) t t.rootPageId key

/-- `GetValue(key, result)`: miss on an empty tree, else search the owning
leaf. -/
def GetValue (t : Tree) (key : Int) : Except String (Option Int) :=
  if IsEmpty t then .ok none
  else do
    let (_, leaf) ← FindLeaf t key
    .ok (LeafNode.FindKey leaf key)

/-- `LeafSplit(leaf_node)`: allocate a right sibling, move the upper half
(`[size/2, size)`) of the entries to it, chain it into the sibling list.
Returns the new page id; the new page has parent -1 (from Init). -/
def LeafSplit (t : Tree) (leafPid : Int) : Except String (Tree × Int) := do
  let node ← fetch t leafPid
  match node with
  | .internal _ => .error errType
  | .leaf leaf =>
      let (newPid, t1) := NewPage t
      let half := leaf.entries.length / 2
      let newLeaf : LeafNode :=
        { entries := leaf.entries.drop half, parent := -1, next := leaf.next }
      let leaf2 : LeafNode := { leaf with entries := leaf.entries.take half, next := newPid }
      .ok (setPage (setPage t1 newPid (.leaf newLeaf)) leafPid (.leaf leaf2), newPid)

/-- `InsertIntoParent(old_node, key, new_node)`: root split grows a fresh
root; a parent with room takes `(key, new)` in place; a full parent is copied
to a scratch buffer, the entry inserted there, the scratch split
(`InternalSplit`, which allocates the right internal and moves the entries
from position `1 + (size-1)/2` up), the scratch lower half copied back, and
the risen key (entry 0 of the new right internal) inserted into the
grandparent recursively.  As in the source, only `new_node` gets its parent
pointer retargeted to the new right internal; the other moved children keep
their stale parent pointers. -/
def InsertIntoParent : Nat → Tree → Int → Int → Int → Except String Tree
  | 0, _, _, _, _ => .error errFuel
  | fuel + 1, t, oldPid, key, newPid => do
      let oldNode ← fetch t oldPid
      if nodeParent oldNode = -1 then
        let (rootPid, t1) := NewPage t
        let newRoot : InternalNode :=
          InternalNode.InsertAfter (InternalNode.SetValue0 { entries := [], parent := -1 } oldPid)
            key newPid
        let t2 := setPage t1 rootPid (.internal newRoot)
        let t3 := setPage t2 oldPid (setParent oldNode rootPid)
        let newNode ← fetch t3 newPid
        let t4 := setPage t3 newPid (setParent newNode rootPid)
        .ok { t4 with rootPageId := rootPid }
      else do
        let parentId := nodeParent oldNode
        let pnode ← fetch t parentId
        match pnode with
        | .leaf _ => .error errType
        | .internal parent =>
            if parent.entries.length < t.internalMax then
              let parent1 := InternalNode.Insert parent key newPid
              let t1 := setPage t parentId (.internal parent1)
              let newNode ← fetch t1 newPid
              .ok (setPage t1 newPid (setParent newNode parentId))
            else do
              let copy := InternalNode.Insert parent key newPid
              let (splitPid, t1) := NewPage t
              let half := 1 + (copy.entries.length - 1) / 2
              let newInternal : InternalNode :=
                { entries := copy.entries.drop half, parent := -1 }
              let copy2 : InternalNode := { copy with entries := copy.entries.take half }
              let t2 := setPage t1 splitPid (.internal newInternal)
              let newNode ← fetch t2 newPid
              let t3 := setPage t2 newPid (setParent newNode splitPid)
              let risen := InternalNode.KeyAt newInternal 0
              let t4 := setPage t3 parentId (.internal copy2)
              InsertIntoParent fuel t4 parentId risen splitPid

/-- `InsertIntoLeaf(key, value)`: insert into the owning leaf; split when the
size reaches `leaf_max_size_` and propagate the first key of the new right
sibling upward. -/
def InsertIntoLeaf (fuel : Nat) (t : Tree) (key v : Int) : Except String Tree := do
  let (pid, leaf) ← FindLeaf t key
  let leaf1 := LeafNode.Insert leaf key v
  let t1 := setPage t pid (.leaf leaf1)
  if leaf1.entries.length < t.leafMax then .ok t1
  else do
    let (t2, newPid) ← LeafSplit t1 pid
    let newNode ← fetch t2 newPid
    match newNode with
    | .internal _ => .error errType
    | .leaf nl => InsertIntoParent fuel t2 pid (LeafNode.KeyAt nl 0) newPid

/-- `Insert(key, value)`: start a new root leaf on an empty tree; reject
duplicates (via `GetValue`); otherwise insert into the owning leaf. -/
def Insert (t : Tree) (key v : Int) : Except String (Bool × Tree) :=
  if IsEmpty t then
    let (rootPid, t1) := NewPage t
    let leaf1 := LeafNode.Insert { entries := [], parent := -1, next := -1 } key v
    .ok (true, { setPage t1 rootPid (.leaf leaf1) with rootPageId := rootPid })
  else do
    match ← GetValue t key with
    | some _ => .ok (false, t)
    | none => do
        let t1 ← InsertIntoLeaf (t.pages.length + 1) t key v
        .ok (true, t1)

/-- `UpdataParentKey(old_key, new_key, cur_node)` (name as in the source):
replace the separator above `cur_node` when it equals the removed key. -/
def UpdataParentKey (t : Tree) (oldKey newKey : Int) (curPid : Int) : Except String Tree := do
  let cur ← fetch t curPid
  let parentId := nodeParent cur
  if parentId = 0 then .error errAssert
  else do
    let pnode ← fetch t parentId
    match pnode with
    | .leaf _ => .error errType
    | .internal parent =>
        let index := InternalNode.FindIndex parent oldKey - 1
        if ¬(curPid = InternalNode.ValueAt parent index) then .error errAssert
        else if InternalNode.KeyAt parent index = oldKey then
          .ok (setPage t parentId (.internal (InternalNode.SetKeyAt parent index newKey)))
        else .ok t

/-- `RedistributeBrother(key, cur_node)`: borrow one entry from a rich
sibling.  The left sibling is considered only under the guard
`index - 1 > 0` of the source (the parent position of `cur_node` must be at
least 2); then the right sibling under `index + 1 < parent.GetSize()`.  Pin
counts follow the source exactly: the parent and each probed sibling are
fetched; on success the donor and the parent are unpinned, but a probed
sibling that turns out poor is never unpinned (its pin is leaked), and on
the failure return only the parent is unpinned. -/
def RedistributeBrother (t : Tree) (key : Int) (curPid : Int) :
    Except String (Bool × Tree) := do
  let cur ← fetch t curPid
  let parentId := nodeParent cur
  if parentId = 0 then .error errAssert
  else do
    let pnode ← fetch t parentId
    match pnode with
    | .leaf _ => .error errType
    | .internal parent =>
        let t1 := tFetch t parentId
        let index := InternalNode.FindIndex parent key - 1
        if ¬(curPid = InternalNode.ValueAt parent index) then .error errAssert
        else do
          let leftDone : Option Tree × Tree ←
            if index - 1 > 0 then do
              let leftPid := InternalNode.ValueAt parent (index - 1)
              let leftNode ← fetch t1 leftPid
              let t2 := tFetch t1 leftPid
              if nodeSize leftNode > nodeMinSize t2 leftNode then
                match leftNode, cur with
                | .leaf lleaf, .leaf cleaf =>
                    let (kv, lleaf1) := LeafNode.PopBack lleaf
                    let cleaf1 := LeafNode.PushFront cleaf kv
                    let parent1 :=
                      InternalNode.SetKeyAt parent index (LeafNode.KeyAt cleaf1 0)
                    let t3 := setPage (setPage (setPage t2 leftPid (.leaf lleaf1))
                      curPid (.leaf cleaf1)) parentId (.internal parent1)
                    pure (some (tUnpin (tUnpin t3 leftPid) parentId), t2)
                | .internal linner, .internal cinner =>
                    let (kv, linner1) := InternalNode.PopBack linner
                    let parentKey := InternalNode.KeyAt parent index
                    let parent1 := InternalNode.SetKeyAt parent index kv.1
                    let cinner1 :=
                      InternalNode.PushFront (InternalNode.SetKeyAt cinner 0 parentKey) kv
                    let t3 := setPage (setPage (setPage t2 leftPid (.internal linner1))
                      curPid (.internal cinner1)) parentId (.internal parent1)
                    pure (some (tUnpin (tUnpin t3 leftPid) parentId), t2)
                | _, _ => .error errType
              else pure (none, t2)
            else pure (none, t1)
          match leftDone with
          | (some tr, _) => .ok (true, tr)
          | (none, t2) =>
              if index + 1 < parent.entries.length then do
                let rightPid := InternalNode.ValueAt parent (index + 1)
                let rightNode ← fetch t2 rightPid
                let t3 := tFetch t2 rightPid
                if nodeSize rightNode > nodeMinSize t3 rightNode then
                  match rightNode, cur with
                  | .leaf rleaf, .leaf cleaf =>
                      let (kv, rleaf1) := LeafNode.PopFront rleaf
                      let cleaf1 := LeafNode.PushBack cleaf kv
                      let parent1 :=
                        InternalNode.SetKeyAt parent (index + 1) (LeafNode.KeyAt rleaf1 0)
                      let t4 := setPage (setPage (setPage t3 rightPid (.leaf rleaf1))
                        curPid (.leaf cleaf1)) parentId (.internal parent1)
                      .ok (true, tUnpin (tUnpin t4 rightPid) parentId)
                  | .internal rinner, .internal cinner =>
                      let parentKey := InternalNode.KeyAt parent (index + 1)
                      let rinner0 := InternalNode.SetKeyAt rinner 0 parentKey
                      let (kv, rinner1) := InternalNode.PopFront rinner0
                      let parent1 :=
                        InternalNode.SetKeyAt parent (index + 1) (InternalNode.KeyAt rinner1 0)
                      let cinner1 := InternalNode.PushBack cinner kv
                      let t4 := setPage (setPage (setPage t3 rightPid (.internal rinner1))
                        curPid (.internal cinner1)) parentId (.internal parent1)
                      .ok (true, tUnpin (tUnpin t4 rightPid) parentId)
                  | _, _ => .error errType
                else .ok (false, tUnpin t3 parentId)
              else .ok (false, tUnpin t2 parentId)

end BPT

namespace BPT

/-- `MergeBrother(key, cur_node)`: the root shrink case; the early exits; the
redistribution attempt; then merge with the left sibling (considered only
when `index - 1 > 0`) or the right sibling, removing the separator from the
parent, recursing on the parent and freeing the emptied page.  The merge of
an internal node into its LEFT sibling appends copies of the left sibling's
own first `cur.size` entries (as the source loop reads `left_inner_node`
where `cur_inner_node` was intended), losing the merged children; the model
reproduces this.  When no branch applies, the final `assert(0)` aborts.  Pin
counts follow the source: the parent and the examined sibling are fetched
and unpinned around each merge, the root-shrink `DeletePage` result is
ignored, and each merge arm ends in `assert(DeletePage(...))` on the emptied
page - which aborts when that page still holds a pin (in particular the pin
`RedistributeBrother` leaked on it while probing it as a donor). -/
def MergeBrother : Nat → Tree → Int → Int → Except String Tree
  | 0, _, _, _ => .error errFuel
  | fuel + 1, t, key, curPid => do
      let cur ← fetch t curPid
      if nodeParent cur = -1 then
        match cur with
        | .leaf _ => .error errAssert
        | .internal root =>
            if root.entries.length = 1 then do
              let newRootPid := InternalNode.ValueAt root 0
              let t1 := { (DeletePage t t.rootPageId).2 with rootPageId := newRootPid }
              let newRoot ← fetch t1 newRootPid
              let t2 := tFetch t1 newRootPid
              .ok (tUnpin (setPage t2 newRootPid (setParent newRoot (-1))) newRootPid)
            else .ok t
      else
        if nodeSize cur ≥ nodeMinSize t cur then .ok t
        else do
          match ← RedistributeBrother t key curPid with
          | (true, t1) => .ok t1
          | (false, t1) => do
              let parentId := nodeParent cur
              let pnode ← fetch t1 parentId
              match pnode with
              | .leaf _ => .error errType
              | .internal parent =>
                  let t2 := tFetch t1 parentId
                  let index := InternalNode.FindIndex parent key - 1
                  if ¬(curPid = InternalNode.ValueAt parent index) then .error errAssert
                  else do
                    let leftDone : Option Tree × Tree ←
                      if index - 1 > 0 then do
                        let leftPid := InternalNode.ValueAt parent (index - 1)
                        let leftNode ← fetch t2 leftPid
                        let t3 := tFetch t2 leftPid
                        match cur with
                        | .leaf cleaf =>
                            if nodeSize leftNode + cleaf.entries.length < t.leafMax then
                              match leftNode with
                              | .internal _ => .error errType
                              | .leaf lleaf => do
                                  let lleaf1 :=
                                    { lleaf with entries := lleaf.entries ++ cleaf.entries }
                                  let parent1 := InternalNode.RemoveByIndex parent index
                                  let tm := setPage (setPage (setPage t3 leftPid (.leaf lleaf1))
                                    curPid (.leaf { cleaf with entries := [] }))
                                    parentId (.internal parent1)
                                  let tr ← MergeBrother fuel tm key parentId
                                  let tr1 := tUnpin (tUnpin tr leftPid) parentId
                                  match DeletePage tr1 curPid with
                                  | (true, tr2) => pure (some tr2, t3)
                                  | (false, _) => .error errAssert
                            else pure (none, tUnpin t3 parentId)
                        | .internal cinner =>
                            if nodeSize leftNode + cinner.entries.length ≤ t.internalMax then
                              match leftNode with
                              | .leaf _ => .error errType
                              | .internal linner => do
                                  let cinner1 := InternalNode.SetKeyAt cinner 0
                                    (InternalNode.KeyAt parent index)
                                  let linner1 := { linner with entries :=
                                    linner.entries ++ linner.entries.take cinner1.entries.length }
                                  let parent1 := InternalNode.RemoveByIndex parent index
                                  let tm := setPage (setPage (setPage t3 leftPid
                                    (.internal linner1)) curPid
                                    (.internal { cinner1 with entries := [] }))
                                    parentId (.internal parent1)
                                  let tr ← MergeBrother fuel tm key parentId
                                  let tr1 := tUnpin (tUnpin tr leftPid) parentId
                                  match DeletePage tr1 curPid with
                                  | (true, tr2) => pure (some tr2, t3)
                                  | (false, _) => .error errAssert
                            else pure (none, tUnpin t3 parentId)
                      else pure (none, t2)
                    match leftDone with
                    | (some tr, _) => .ok tr
                    | (none, t3) =>
                        if index + 1 < parent.entries.length then do
                          let rightPid := InternalNode.ValueAt parent (index + 1)
                          let rightNode ← fetch t3 rightPid
                          let t4 := tFetch t3 rightPid
                          match cur with
                          | .leaf cleaf =>
                              if nodeSize rightNode + cleaf.entries.length < t.leafMax then
                                match rightNode with
                                | .internal _ => .error errType
                                | .leaf rleaf => do
                                    let cleaf1 :=
                                      { cleaf with entries := cleaf.entries ++ rleaf.entries }
                                    let parent1 := InternalNode.RemoveByIndex parent (index + 1)
                                    let tm := setPage (setPage (setPage t4 curPid (.leaf cleaf1))
                                      rightPid (.leaf { rleaf with entries := [] }))
                                      parentId (.internal parent1)
                                    let tr ← MergeBrother fuel tm key parentId
                                    let tr1 := tUnpin (tUnpin tr rightPid) parentId
                                    match DeletePage tr1 rightPid with
                                    | (true, tr2) => .ok tr2
                                    | (false, _) => .error errAssert
                              else .error errAssert
                          | .internal cinner =>
                              if nodeSize rightNode + cinner.entries.length ≤ t.internalMax then
                                match rightNode with
                                | .leaf _ => .error errType
                                | .internal rinner => do
                                    let rinner0 := InternalNode.SetKeyAt rinner 0
                                      (InternalNode.KeyAt parent (index + 1))
                                    let cinner1 := { cinner with
                                      entries := cinner.entries ++ rinner0.entries }
                                    let parent1 := InternalNode.RemoveByIndex parent (index + 1)
                                    let tm := setPage (setPage (setPage t4 curPid
                                      (.internal cinner1)) rightPid
                                      (.internal { rinner0 with entries := [] }))
                                      parentId (.internal parent1)
                                    let tr ← MergeBrother fuel tm key parentId
                                    let tr1 := tUnpin (tUnpin tr rightPid) parentId
                                    match DeletePage tr1 rightPid with
                                    | (true, tr2) => .ok tr2
                                    | (false, _) => .error errAssert
                              else .error errAssert
                        else .error errAssert

/-- `Remove(key)`: no-op on an empty tree; remove from the owning leaf; a
root leaf needs no rebalancing; a leaf that was above its minimum may only
need its parent separator refreshed; otherwise rebalance via
`MergeBrother`. -/
def Remove (t : Tree) (key : Int) : Except String Tree :=
  if IsEmpty t then .ok t
  else do
    let (pid, leaf) ← FindLeaf t key
    let leafOldSize := leaf.entries.length
    if leafOldSize = 0 then .error errAssert
    else
      let oldKey0 := LeafNode.KeyAt leaf 0
      let leaf1 := LeafNode.Remove leaf key
      let t1 := setPage t pid (.leaf leaf1)
      if leaf.parent = -1 then .ok t1
      else if leafOldSize > t.leafMax / 2 then
        if ¬(leafOldSize > 1) then .error errAssert
        else if oldKey0 = key then UpdataParentKey t1 key (LeafNode.KeyAt leaf1 0) pid
        else .ok t1
      else MergeBrother (t.pages.length + 1) t1 key pid

/-- `IndexIterator` state: the current leaf page and `key_index_`. -/
structure IterState where
  leafId : Int
  keyIndex : Int
deriving DecidableEq, Repr

/-- `IndexIterator::IsEnd()`. -/
def IsEnd (t : Tree) (it : IterState) : Except String Bool := do
  match ← fetch t it.leafId with
  | .internal _ => .error errType
  | .leaf leaf => .ok (decide (it.keyIndex ≥ (leaf.entries.length : Int)) && leaf.next == -1)

/-- `IndexIterator::operator++` together with its pin-count effects: throws
past the end; advances the index inside the leaf; at the last entry of a leaf
with a successor it fetches the successor (pin +1), moves onto it with index
0, and then unpins the successor (pin -1) - the leaf it came from is never
unpinned. -/
def IterInc (t : Tree) (it : IterState) (pins : PinMap) :
    Except String (IterState × PinMap) := do
  match ← fetch t it.leafId with
  | .internal _ => .error errType
  | .leaf leaf =>
      let size : Int := leaf.entries.length
      if it.keyIndex ≥ size then .error errIter
      else if it.keyIndex < size - 1 then .ok ({ it with keyIndex := it.keyIndex + 1 }, pins)
      else if leaf.next = -1 then .ok ({ it with keyIndex := it.keyIndex + 1 }, pins)
      else do
        let _ ← fetch t leaf.next
        let pins1 := pinFetch pins leaf.next
        let pins2 := pinUnpin pins1 leaf.next
        .ok ({ leafId := leaf.next, keyIndex := 0 }, pins2)

/-- The descent loop of `Begin()`: always child 0. -/
def beginFrom : Nat → Tree → Int → Except String Int
  | 0, _, _ => .error errFuel
  | fuel + 1, t, pid => do
      match ← fetch t pid with
      | .leaf _ => .ok pid
      | .internal n => beginFrom fuel t (InternalNode.ValueAt n 0)

/-- `Begin()`: the leftmost leaf at index 0 (asserts a non-empty tree). -/
def Begin (t : Tree) : Except String IterState := do
  if IsEmpty t then .error errAssert
  else do
    let pid ← beginFrom (t.pages.length + 1) t t.rootPageId
    .ok { leafId := pid, keyIndex := 0 }

/-- A full scan: dereference and ++ until IsEnd. -/
def scanFrom : Nat → Tree → IterState → Except String (List (Int × Int))
  | 0, _, _ => .error errFuel
  | fuel + 1, t, it => do
      if ← IsEnd t it then .ok []
      else
        match ← fetch t it.leafId with
        | .internal _ => .error errType
        | .leaf leaf =>
            let kv := leaf.entries.getD it.keyIndex.toNat (0, 0)
            let (it1, _) ← IterInc t it []
            let rest ← scanFrom fuel t it1
            .ok (kv :: rest)

def Scan (t : Tree) : Except String (List (Int × Int)) := do
  let it ← Begin t
  scanFrom (t.pages.length * (t.leafMax + 1) + 2) t it

/-- Insert a list of (key, value) pairs in order. -/
def insertSeq (t : Tree) : List (Int × Int) → Except String Tree
  | [] => .ok t
  | (k, v) :: rest => do
      let (_, t1) ← Insert t k v
      insertSeq t1 rest

end BPT

namespace BPT

/-- The C1 scenario base: keys 10,20,...,80 and 75 (values 100·key) inserted
into an empty tree with leaf_max = internal_max = 4.  Key 72 is absent; the
root is a full internal page and the leaf that owns 72 is its last child with
three entries, so inserting 72 splits that leaf and then the root. -/
def c1base : Except String Tree :=
  insertSeq (bptEmpty 4 4) ([10, 20, 30, 40, 50, 60, 70, 80, 75].map (fun x => (x, 100 * x)))

/-- The C5 counterexample run: keys 10,20,30,40,50,60,15 into a (4,4) tree,
ending with leaves [10,15,20], [30,40], [50,60] under one root, so the middle
leaf sits at parent position 1 with a left sibling above its minimum size. -/
def c5run : Except String Tree :=
  insertSeq (bptEmpty 4 4) ([10, 20, 30, 40, 50, 60, 15].map (fun x => (x, 100 * x)))

/-- A (4,4) tree with four leaves under a full root, where leaf page 5 has
just lost a key (as `Remove 80` leaves it right before rebalancing): the
configuration on which `MergeBrother` calls `RedistributeBrother` with an
underfull last child whose left sibling holds three entries. -/
def c5wTree : Tree :=
  { pages := [
      (1, .leaf { entries := [(10, 1000), (20, 2000)], parent := 3, next := 2 }),
      (2, .leaf { entries := [(30, 3000), (40, 4000)], parent := 3, next := 4 }),
      (3, .internal { entries := [(0, 1), (30, 2), (50, 4), (70, 5)], parent := -1 }),
      (4, .leaf { entries := [(50, 5000), (55, 5500), (60, 6000)], parent := 3, next := 5 }),
      (5, .leaf { entries := [(70, 7000)], parent := 3, next := -1 })],
    rootPageId := 3, nextPageId := 6, leafMax := 4, internalMax := 4 }

/-- The two-leaf tree grown by the C7 scenario (leaves [1,2] and [3,4,5]
chained 1 → 2 under one root), used as the iterator's fixed tree. -/
def c6tree : Tree :=
  { pages := [
      (1, .leaf { entries := [(1, 10), (2, 20)], parent := 3, next := 2 }),
      (2, .leaf { entries := [(3, 30), (4, 40), (5, 50)], parent := 3, next := -1 }),
      (3, .internal { entries := [(0, 1), (3, 2)], parent := -1 })],
    rootPageId := 3, nextPageId := 4, leafMax := 4, internalMax := 4 }

/-- The C7 run: keys 1,2,3,4,5 (values 10·key) into an empty (4,4) tree. -/
def c7run : Except String Tree :=
  insertSeq (bptEmpty 4 4) ([1, 2, 3, 4, 5].map (fun k => (k, 10 * k)))

end BPT

set_option maxRecDepth 100000

namespace LRUK

theorem countEvictable_eq (s : RState) :
    countEvictable s = cntE s.fifo + cntE s.lru := by
  unfold countEvictable cntE
  rw [← List.countP_eq_length_filter, List.countP_append]


theorem find?_eq_head?_filter (p : LinkedNode → Bool) (l : List LinkedNode) :
    l.find? p = (l.filter p).head? := by
  induction l with
  | nil => rfl
  | cons a l ih =>
      by_cases h : p a
      · simp [List.find?_cons, List.filter_cons, h]
      · rw [List.find?_cons, List.filter_cons]
        simp only [h, if_false, Bool.false_eq_true, cond_false]
        exact ih

theorem find?_reverse (p : LinkedNode → Bool) (l : List LinkedNode) :
    l.reverse.find? p = (l.filter p).getLast? := by
  rw [find?_eq_head?_filter, List.filter_reverse, List.head?_reverse]

theorem getLast?_mem {l : List LinkedNode} {a : LinkedNode} (h : l.getLast? = some a) :
    a ∈ l := by
  have hmem : a ∈ l.getLast? := by rw [h]; rfl
  obtain ⟨hne, rfl⟩ := List.mem_getLast?_eq_getLast hmem
  exact List.getLast_mem hne

theorem minByFirstT_sorted : ∀ {l : List LinkedNode},
    l.Pairwise (fun a b => b.firstT < a.firstT) → minByFirstT l = l.getLast?
  | [], _ => rfl
  | [n], _ => rfl
  | n :: m :: l, h => by
      have hs := (List.pairwise_cons.mp h).2
      have hhead := (List.pairwise_cons.mp h).1
      have ih := minByFirstT_sorted hs
      obtain ⟨g, hg⟩ : ∃ g, (m :: l).getLast? = some g := by
        cases e : (m :: l).getLast? with
        | none => exact absurd (List.getLast?_eq_none_iff.mp e) (by simp)
        | some g => exact ⟨g, rfl⟩
      have hgm : g ∈ m :: l := getLast?_mem hg
      have hlt : g.firstT < n.firstT := hhead g hgm
      show (match minByFirstT (m :: l) with
        | none => some n
        | some m' => some (if n.firstT ≤ m'.firstT then n else m')) = (n :: m :: l).getLast?
      rw [ih, hg, List.getLast?_cons_cons, hg]
      simp [Nat.not_le.mpr hlt, Nat.not_le.mp]

theorem minByLastT_sorted : ∀ {l : List LinkedNode},
    l.Pairwise (fun a b => b.lastT < a.lastT) → minByLastT l = l.getLast?
  | [], _ => rfl
  | [n], _ => rfl
  | n :: m :: l, h => by
      have hs := (List.pairwise_cons.mp h).2
      have hhead := (List.pairwise_cons.mp h).1
      have ih := minByLastT_sorted hs
      obtain ⟨g, hg⟩ : ∃ g, (m :: l).getLast? = some g := by
        cases e : (m :: l).getLast? with
        | none => exact absurd (List.getLast?_eq_none_iff.mp e) (by simp)
        | some g => exact ⟨g, rfl⟩
      have hgm : g ∈ m :: l := getLast?_mem hg
      have hlt : g.lastT < n.lastT := hhead g hgm
      show (match minByLastT (m :: l) with
        | none => some n
        | some m' => some (if n.lastT ≤ m'.lastT then n else m')) = (n :: m :: l).getLast?
      rw [ih, hg, List.getLast?_cons_cons, hg]
      simp [Nat.not_le.mpr hlt, Nat.not_le.mp]

theorem replaceNode_of_not_mem {l : List LinkedNode} {old new : LinkedNode}
    (h : old ∉ l) : replaceNode l old new = l := by
  unfold replaceNode
  conv_rhs => rw [← List.map_id l]
  apply List.map_congr_left
  intro x hx
  have : x ≠ old := fun e => h (e ▸ hx)
  simp [this]

theorem replaceNode_perm {l : List LinkedNode} {old new : LinkedNode}
    (hN : l.Nodup) (hm : old ∈ l) :
    (replaceNode l old new).Perm (new :: l.erase old) := by
  induction l with
  | nil => cases hm
  | cons a l ih =>
      by_cases hao : a = old
      · subst hao
        have hol : a ∉ l := (List.nodup_cons.mp hN).1
        have h1 : replaceNode (a :: l) a new = new :: l := by
          unfold replaceNode
          simp only [List.map_cons, if_pos rfl]
          exact congrArg _ (replaceNode_of_not_mem hol)
        rw [h1, List.erase_cons_head]
      · have hm' : old ∈ l := by
          rcases List.mem_cons.mp hm with h | h
          · exact absurd h.symm hao
          · exact h
        have h1 : replaceNode (a :: l) old new = a :: replaceNode l old new := by
          unfold replaceNode
          simp only [List.map_cons, if_neg hao]
        have h2 : (a :: l).erase old = a :: l.erase old := by
          rw [List.erase_cons_tail]
          simp [hao]
        rw [h1, h2]
        exact (((ih (List.nodup_cons.mp hN).2) hm').cons a).trans (List.Perm.swap _ _ _)

theorem cntE_replaceNode_eq {l : List LinkedNode} {old new : LinkedNode}
    (h : new.evictable = old.evictable) :
    cntE (replaceNode l old new) = cntE l := by
  unfold cntE replaceNode
  rw [List.countP_map]
  apply List.countP_congr
  intro x _
  by_cases hxo : x = old <;> simp [Function.comp, hxo, h]

theorem keys_replaceNode {l : List LinkedNode} {old new : LinkedNode}
    (h : new.key = old.key) :
    (replaceNode l old new).map (fun n => n.key) = l.map (fun n => n.key) := by
  unfold replaceNode
  rw [List.map_map]
  apply List.map_congr_left
  intro x _
  by_cases hxo : x = old <;> simp [Function.comp, hxo, h]

theorem mem_replaceNode {l : List LinkedNode} {old new x : LinkedNode}
    (hx : x ∈ replaceNode l old new) : x = new ∨ x ∈ l := by
  unfold replaceNode at hx
  rcases List.mem_map.mp hx with ⟨y, hy, hg⟩
  by_cases hyo : y = old
  · left; rw [← hg]; simp [hyo]
  · right; rw [← hg]; simpa [hyo] using hy

theorem pairwise_replaceNode {l : List LinkedNode} {old new : LinkedNode}
    {f : LinkedNode → Nat} (h : f new = f old)
    (hp : l.Pairwise (fun a b => f b < f a)) :
    (replaceNode l old new).Pairwise (fun a b => f b < f a) := by
  unfold replaceNode
  rw [List.pairwise_map]
  have hg : ∀ x, f (if x = old then new else x) = f x := by
    intro x
    by_cases hx : x = old <;> simp [hx, h]
  exact hp.imp (fun {a b} hab => by rw [hg, hg]; exact hab)

theorem cntE_erase {l : List LinkedNode} {a : LinkedNode} (hm : a ∈ l) :
    cntE l = (if a.evictable then 1 else 0) + cntE (l.erase a) := by
  unfold cntE
  rw [(List.perm_cons_erase hm).countP_eq]
  rw [List.countP_cons]
  by_cases h : a.evictable
  · simp [h]; omega
  · simp [h]

theorem getNode_some {s : RState} {f : Int} {node : LinkedNode}
    (h : getNode s f = some node) : node ∈ s.fifo ++ s.lru ∧ node.key = f := by
  unfold getNode at h
  exact ⟨List.mem_of_find?_eq_some h, by simpa using List.find?_some h⟩

theorem getNode_none {s : RState} {f : Int} (h : getNode s f = none) :
    ∀ n ∈ s.fifo ++ s.lru, n.key ≠ f := by
  unfold getNode at h
  intro n hn
  have := List.find?_eq_none.mp h n hn
  simpa using this

end LRUK

namespace LRUK

theorem node_side {s : RState} {node : LinkedNode}
    (hN : ((s.fifo ++ s.lru).map (fun n => n.key)).Nodup)
    (hmem : node ∈ s.fifo ++ s.lru) :
    (node ∈ s.fifo ∧ node ∉ s.lru) ∨ (node ∈ s.lru ∧ node ∉ s.fifo) := by
  have hd := (List.nodup_append.mp (by rwa [List.map_append] at hN)).2.2
  rcases List.mem_append.mp hmem with h | h
  · exact Or.inl ⟨h, fun hl => hd (List.mem_map_of_mem _ h) (List.mem_map_of_mem _ hl)⟩
  · exact Or.inr ⟨h, fun hf => hd (List.mem_map_of_mem _ hf) (List.mem_map_of_mem _ h)⟩

theorem key_not_mem_keys_erase {l : List LinkedNode} {node : LinkedNode}
    (hN : (l.map (fun n => n.key)).Nodup) (hm : node ∈ l) :
    node.key ∉ (l.erase node).map (fun n => n.key) := by
  have hperm : (l.map fun n => n.key).Perm
      (node.key :: (l.erase node).map fun n => n.key) := by
    simpa using (List.perm_cons_erase hm).map (fun n => n.key)
  exact (List.nodup_cons.mp (hperm.nodup_iff.mp hN)).1

theorem keys_erase_subset {l : List LinkedNode} {node : LinkedNode} :
    ∀ a ∈ (l.erase node).map (fun n => n.key), a ∈ l.map (fun n => n.key) :=
  fun _ ha => ((List.erase_sublist node l).map (fun n => n.key)).subset ha

/-- Keys-nodup plus counter consistency is preserved by every `RecordAccess`
that returns normally. -/
theorem sumInv_RecordAccess {s s' : RState} {f : Int}
    (h : RecordAccess s f = .ok s') (hI : SumInv s) : SumInv s' := by
  obtain ⟨hN, hC⟩ := hI
  unfold RecordAccess at h
  by_cases hg : castSizeT f > s.numFrames
  · rw [if_pos hg] at h; cases h
  rw [if_neg hg] at h
  cases hc : getNode s f with
  | none =>
      rw [hc] at h
      dsimp only at h
      cases h
      constructor
      · -- the new key f is fresh
        have hfresh := getNode_none hc
        simp only [List.cons_append, List.map_cons, List.nodup_cons]
        refine ⟨?_, hN⟩
        intro hmem
        rcases List.mem_map.mp hmem with ⟨n, hn, hkey⟩
        exact hfresh n hn hkey
      · -- the new node is not evictable
        rw [countEvictable_eq] at hC ⊢
        simp only [cntE, List.countP_cons]
        simpa using hC
  | some node =>
      rw [hc] at h
      dsimp only at h
      obtain ⟨hmem, hkey⟩ := getNode_some hc
      rcases node_side hN hmem with ⟨hf, hnl⟩ | ⟨hl, hnf⟩
      all_goals {
        by_cases hk : node.frequency + 1 ≥ s.k
        · rw [if_pos hk] at h
          cases h
          first
          | -- node was in the FIFO list
            (refine ⟨?_, ?_⟩
             · have h1 : node.key ∉ (s.fifo.erase node).map (fun n => n.key) :=
                 fun hx => key_not_mem_keys_erase
                   (by rw [List.map_append] at hN; exact (List.nodup_append.mp hN).1) hf hx
               have h2 : node.key ∉ s.lru.map (fun n => n.key) := by
                 intro hx
                 rcases List.mem_map.mp hx with ⟨m, hm, hkm⟩
                 rw [List.map_append] at hN
                 exact (List.nodup_append.mp hN).2.2
                   (List.mem_map_of_mem _ hf) (hkm ▸ List.mem_map_of_mem _ hm)
               rw [List.map_append] at hN ⊢
               obtain ⟨hN1, hN2, hN3⟩ := List.nodup_append.mp hN
               rw [List.erase_of_not_mem hnl]
               refine List.nodup_append.mpr ⟨hN1.sublist ((List.erase_sublist _ _).map _), ?_, ?_⟩
               · rw [List.map_cons, List.nodup_cons]
                 exact ⟨by simpa using h2, hN2⟩
               · intro a ha
                 simp only [List.map_cons, List.mem_cons]
                 rintro (rfl | hal)
                 · exact h1 ha
                 · exact hN3 (keys_erase_subset a ha) hal
             · rw [countEvictable_eq] at hC ⊢
               have he := cntE_erase hf
               rw [List.erase_of_not_mem hnl]
               simp only [cntE, List.countP_cons] at *
               by_cases hev : node.evictable <;> simp [hev] at he ⊢ <;> omega)
          | -- node was in the LRU list
            (refine ⟨?_, ?_⟩
             · have h1 : node.key ∉ (s.lru.erase node).map (fun n => n.key) :=
                 fun hx => key_not_mem_keys_erase
                   (by rw [List.map_append] at hN; exact (List.nodup_append.mp hN).2.1) hl hx
               rw [List.map_append] at hN ⊢
               obtain ⟨hN1, hN2, hN3⟩ := List.nodup_append.mp hN
               rw [List.erase_of_not_mem hnf]
               refine List.nodup_append.mpr ⟨hN1, ?_, ?_⟩
               · rw [List.map_cons, List.nodup_cons]
                 exact ⟨by simpa using h1, hN2.sublist ((List.erase_sublist _ _).map _)⟩
               · intro a ha
                 simp only [List.map_cons, List.mem_cons]
                 rintro (rfl | hal)
                 · exact hN3 ha (hkey ▸ List.mem_map_of_mem _ hl)
                 · exact hN3 ha (keys_erase_subset a hal)
             · rw [countEvictable_eq] at hC ⊢
               have he := cntE_erase hl
               rw [List.erase_of_not_mem hnf]
               simp only [cntE, List.countP_cons] at *
               by_cases hev : node.evictable <;> simp [hev] at he ⊢ <;> omega)
        · rw [if_neg hk] at h
          cases h
          constructor
          · have e1 := @keys_replaceNode s.fifo node
              { node with frequency := node.frequency + 1, lastT := s.clock } rfl
            have e2 := @keys_replaceNode s.lru node
              { node with frequency := node.frequency + 1, lastT := s.clock } rfl
            rw [List.map_append] at hN
            simpa [e1, e2] using hN
          · have e1 := @cntE_replaceNode_eq s.fifo node
              { node with frequency := node.frequency + 1, lastT := s.clock } rfl
            have e2 := @cntE_replaceNode_eq s.lru node
              { node with frequency := node.frequency + 1, lastT := s.clock } rfl
            rw [countEvictable_eq] at hC
            simpa [countEvictable_eq, e1, e2] using hC
      }

end LRUK

namespace LRUK

theorem sumInv_SetEvictable {s s' : RState} {f : Int} {b : Bool}
    (h : SetEvictable s f b = .ok s') (hI : SumInv s) : SumInv s' := by
  obtain ⟨hN, hC⟩ := hI
  unfold SetEvictable at h
  by_cases hg : castSizeT f > s.numFrames
  · rw [if_pos hg] at h; cases h
  rw [if_neg hg] at h
  cases hc : getNode s f with
  | none => rw [hc] at h; dsimp only at h; cases h; exact ⟨hN, hC⟩
  | some node =>
      rw [hc] at h
      dsimp only at h
      by_cases hsame : (b && node.evictable) || (!b && !node.evictable)
      · rw [if_pos hsame] at h; cases h; exact ⟨hN, hC⟩
      rw [if_neg hsame] at h
      obtain ⟨hmem, hkey⟩ := getNode_some hc
      have hflip : b = !node.evictable := by
        cases b <;> cases he : node.evictable <;> simp [he] at hsame ⊢
      have e1 := @keys_replaceNode s.fifo node { node with evictable := b } rfl
      have e2 := @keys_replaceNode s.lru node { node with evictable := b } rfl
      have hNd : (s.fifo ++ s.lru).Nodup := hN.of_map _
      have hcnt : (cntE (replaceNode s.fifo node { node with evictable := b })
            + cntE (replaceNode s.lru node { node with evictable := b }) : Int)
          = cntE s.fifo + cntE s.lru
            + (if b then 1 else 0) - (if node.evictable then 1 else 0) := by
        rcases node_side hN hmem with ⟨hf, hnl⟩ | ⟨hl, hnf⟩
        · have hp := @replaceNode_perm s.fifo node { node with evictable := b }
            ((List.nodup_append.mp hNd).1) hf
          have hc1 : cntE (replaceNode s.fifo node { node with evictable := b })
              = (if b then 1 else 0) + cntE (s.fifo.erase node) := by
            unfold cntE at *
            rw [hp.countP_eq, List.countP_cons]
            by_cases hbb : b <;> simp [hbb] <;> omega
          have hc2 := cntE_erase hf
          rw [hc1, replaceNode_of_not_mem hnl, hc2]
          by_cases he : node.evictable <;> by_cases hbb : b <;> simp [he, hbb] <;> omega
        · have hp := @replaceNode_perm s.lru node { node with evictable := b }
            ((List.nodup_append.mp hNd).2.1) hl
          have hc1 : cntE (replaceNode s.lru node { node with evictable := b })
              = (if b then 1 else 0) + cntE (s.lru.erase node) := by
            unfold cntE at *
            rw [hp.countP_eq, List.countP_cons]
            by_cases hbb : b <;> simp [hbb] <;> omega
          have hc2 := cntE_erase hl
          rw [hc1, replaceNode_of_not_mem hnf, hc2]
          by_cases he : node.evictable <;> by_cases hbb : b <;> simp [he, hbb] <;> omega
      by_cases hfr : node.frequency ≥ 2
      · rw [if_pos hfr] at h
        cases h
        refine ⟨?_, ?_⟩
        · rw [List.map_append] at hN
          simpa [e1, e2] using hN
        · rw [countEvictable_eq] at hC
          simp only [countEvictable_eq, cntE] at *
          rw [hflip] at hcnt ⊢
          by_cases he : node.evictable <;> simp [he] at hcnt ⊢ <;> omega
      · rw [if_neg hfr] at h
        cases h
        refine ⟨?_, ?_⟩
        · rw [List.map_append] at hN
          simpa [e1, e2] using hN
        · rw [countEvictable_eq] at hC
          simp only [countEvictable_eq, cntE] at *
          rw [hflip] at hcnt ⊢
          by_cases he : node.evictable <;> simp [he] at hcnt ⊢ <;> omega

theorem sumInv_Remove {s : RState} {f : Int} (hI : SumInv s) : SumInv (Remove s f) := by
  obtain ⟨hN, hC⟩ := hI
  unfold Remove
  cases hc : getNode s f with
  | none => exact ⟨hN, hC⟩
  | some node =>
      dsimp only
      obtain ⟨hmem, hkey⟩ := getNode_some hc
      by_cases hev : node.evictable
      · rw [if_pos hev]
        have hNer : ((s.fifo.erase node ++ s.lru.erase node).map (fun n => n.key)).Nodup := by
          rw [List.map_append] at hN ⊢
          obtain ⟨hN1, hN2, hN3⟩ := List.nodup_append.mp hN
          exact List.nodup_append.mpr
            ⟨hN1.sublist ((List.erase_sublist _ _).map _),
             hN2.sublist ((List.erase_sublist _ _).map _),
             fun a ha hb => hN3 (keys_erase_subset a ha) (keys_erase_subset a hb)⟩
        have hcnt : (cntE (s.fifo.erase node) + cntE (s.lru.erase node) : Int)
            = cntE s.fifo + cntE s.lru - 1 := by
          rcases node_side hN hmem with ⟨hf, hnl⟩ | ⟨hl, hnf⟩
          · have h1 := cntE_erase hf
            rw [List.erase_of_not_mem hnl]
            simp [hev] at h1
            omega
          · have h1 := cntE_erase hl
            rw [List.erase_of_not_mem hnf]
            simp [hev] at h1
            omega
        by_cases hfr : node.frequency ≥ 2
        · rw [if_pos hfr]
          refine ⟨hNer, ?_⟩
          rw [countEvictable_eq] at hC
          simp only [countEvictable_eq]
          omega
        · rw [if_neg hfr]
          refine ⟨hNer, ?_⟩
          rw [countEvictable_eq] at hC
          simp only [countEvictable_eq]
          omega
      · rw [if_neg hev]
        exact ⟨hN, hC⟩

theorem sumInv_Evict {s : RState} (hI : SumInv s) : SumInv (Evict s).2 := by
  obtain ⟨hN, hC⟩ := hI
  unfold Evict
  by_cases hz : Size s = 0
  · rw [if_pos hz]; exact ⟨hN, hC⟩
  rw [if_neg hz]
  cases hf : s.fifo.reverse.find? (fun n => n.evictable) with
  | some node =>
      dsimp only
      have hmem : node ∈ s.fifo := List.mem_reverse.mp (List.mem_of_find?_eq_some hf)
      have hev : node.evictable := by simpa using List.find?_some hf
      refine ⟨?_, ?_⟩
      · rw [List.map_append] at hN ⊢
        obtain ⟨hA, hB, hD⟩ := List.nodup_append.mp hN
        exact List.nodup_append.mpr
          ⟨hA.sublist ((List.erase_sublist _ _).map _), hB,
           fun a ha hb => hD (keys_erase_subset a ha) hb⟩
      · rw [countEvictable_eq] at hC
        simp only [countEvictable_eq]
        have h1 := cntE_erase hmem
        simp [hev] at h1
        by_cases hfr : node.frequency ≥ s.k <;> simp [hfr] <;> omega
  | none =>
      cases hl : s.lru.reverse.find? (fun n => n.evictable) with
      | some node =>
          dsimp only
          have hmem : node ∈ s.lru := List.mem_reverse.mp (List.mem_of_find?_eq_some hl)
          have hev : node.evictable := by simpa using List.find?_some hl
          refine ⟨?_, ?_⟩
          · rw [List.map_append] at hN ⊢
            obtain ⟨hA, hB, hD⟩ := List.nodup_append.mp hN
            exact List.nodup_append.mpr
              ⟨hA, hB.sublist ((List.erase_sublist _ _).map _),
               fun a ha hb => hD ha (keys_erase_subset a hb)⟩
          · rw [countEvictable_eq] at hC
            simp only [countEvictable_eq]
            have h1 := cntE_erase hmem
            simp [hev] at h1
            by_cases hfr : node.frequency ≥ s.k <;> simp [hfr] <;> omega
      | none => exact ⟨hN, hC⟩

end LRUK

namespace LRUK

theorem sumInv_rInit (numFrames k : Nat) : SumInv (rInit numFrames k) := by
  constructor <;> simp [rInit, countEvictable]

theorem sumInv_applyOp {s : RState} (op : ROp) (hI : SumInv s) : SumInv (applyOp s op) := by
  cases op with
  | access f =>
      simp only [applyOp]
      cases h : RecordAccess s f with
      | ok s' => exact sumInv_RecordAccess h hI
      | error e => exact hI
  | setEvict f b =>
      simp only [applyOp]
      cases h : SetEvictable s f b with
      | ok s' => exact sumInv_SetEvictable h hI
      | error e => exact hI
  | evictOp => exact sumInv_Evict hI
  | removeOp f => exact sumInv_Remove hI

theorem sumInv_runOps (numFrames k : Nat) (ops : List ROp) :
    SumInv (runOps numFrames k ops) := by
  unfold runOps
  generalize hs : rInit numFrames k = s0
  have h0 : SumInv s0 := hs ▸ sumInv_rInit numFrames k
  clear hs
  induction ops generalizing s0 with
  | nil => exact h0
  | cons op ops ih => exact ih _ (sumInv_applyOp op h0)

end LRUK

namespace LRUK

theorem ordInv_rInit (numFrames k : Nat) : OrdInv (rInit numFrames k) := by
  refine ⟨?_, ?_, ?_, ?_, ?_⟩ <;> simp [rInit]

theorem ordInv_RecordAccess {s s' : RState} {f : Int} (hk : 2 ≤ s.k)
    (hS : SumInv s) (h : RecordAccess s f = .ok s') (hO : OrdInv s) : OrdInv s' := by
  obtain ⟨hN, _⟩ := hS
  obtain ⟨hF, hL, hPF, hPL, hT⟩ := hO
  unfold RecordAccess at h
  by_cases hg : castSizeT f > s.numFrames
  · rw [if_pos hg] at h; cases h
  rw [if_neg hg] at h
  cases hc : getNode s f with
  | none =>
      rw [hc] at h
      dsimp only at h
      cases h
      refine ⟨?_, hL, ?_, hPL, ?_⟩
      · intro n hn
        rcases List.mem_cons.mp hn with rfl | hn'
        · exact lt_of_lt_of_le Nat.one_lt_two hk
        · exact hF n hn'
      · refine List.pairwise_cons.mpr ⟨?_, hPF⟩
        intro m hm
        have := hT m (List.mem_append.mpr (Or.inl hm))
        dsimp only
        omega
      · intro n hn
        dsimp only at hn
        rw [List.cons_append] at hn
        rcases List.mem_cons.mp hn with rfl | hn'
        · dsimp only; omega
        · have := hT n hn'
          dsimp only
          omega
  | some node =>
      rw [hc] at h
      dsimp only at h
      obtain ⟨hmem, hkey⟩ := getNode_some hc
      by_cases hfr : node.frequency + 1 ≥ s.k
      · rw [if_pos hfr] at h
        cases h
        refine ⟨?_, ?_, ?_, ?_, ?_⟩
        · exact fun n hn => hF n ((List.erase_sublist _ _).subset hn)
        · intro n hn
          rcases List.mem_cons.mp hn with rfl | hn'
          · exact hfr
          · exact hL n ((List.erase_sublist _ _).subset hn')
        · exact hPF.sublist (List.erase_sublist _ _)
        · refine List.pairwise_cons.mpr ⟨?_, hPL.sublist (List.erase_sublist _ _)⟩
          intro m hm
          have := hT m (List.mem_append.mpr (Or.inr ((List.erase_sublist _ _).subset hm)))
          dsimp only
          omega
        · intro n hn
          rcases List.mem_append.mp hn with hn' | hn'
          · have := hT n (List.mem_append.mpr
              (Or.inl ((List.erase_sublist _ _).subset hn')))
            dsimp only
            omega
          · rcases List.mem_cons.mp hn' with rfl | hn''
            · have := hT node hmem
              dsimp only
              omega
            · have := hT n (List.mem_append.mpr
                (Or.inr ((List.erase_sublist _ _).subset hn'')))
              dsimp only
              omega
      · rw [if_neg hfr] at h
        cases h
        have hfifo : node ∈ s.fifo := by
          rcases node_side hN hmem with ⟨hf, _⟩ | ⟨hl, _⟩
          · exact hf
          · exact absurd (Nat.le_succ_of_le (hL node hl)) hfr
        have hnl : node ∉ s.lru := by
          rcases node_side hN hmem with ⟨_, h2⟩ | ⟨hl, _⟩
          · exact h2
          · exact absurd (Nat.le_succ_of_le (hL node hl)) hfr
        refine ⟨?_, ?_, ?_, ?_, ?_⟩
        · intro n hn
          rcases mem_replaceNode hn with rfl | hn'
          · exact Nat.lt_of_not_le (fun hle => hfr hle)
          · exact hF n hn'
        · rw [replaceNode_of_not_mem hnl]
          exact hL
        · exact pairwise_replaceNode rfl hPF
        · rw [replaceNode_of_not_mem hnl]
          exact hPL
        · intro n hn
          rcases List.mem_append.mp hn with hn' | hn'
          · rcases mem_replaceNode hn' with rfl | hn''
            · have := hT node hmem
              dsimp only
              omega
            · have := hT n (List.mem_append.mpr (Or.inl hn''))
              dsimp only
              omega
          · rw [replaceNode_of_not_mem hnl] at hn'
            have := hT n (List.mem_append.mpr (Or.inr hn'))
            dsimp only
            omega

theorem ordInv_SetEvictable {s s' : RState} {f : Int} {b : Bool}
    (hS : SumInv s) (h : SetEvictable s f b = .ok s') (hO : OrdInv s) : OrdInv s' := by
  obtain ⟨hN, _⟩ := hS
  obtain ⟨hF, hL, hPF, hPL, hT⟩ := hO
  unfold SetEvictable at h
  by_cases hg : castSizeT f > s.numFrames
  · rw [if_pos hg] at h; cases h
  rw [if_neg hg] at h
  cases hc : getNode s f with
  | none => rw [hc] at h; dsimp only at h; cases h; exact ⟨hF, hL, hPF, hPL, hT⟩
  | some node =>
      rw [hc] at h
      dsimp only at h
      by_cases hsame : (b && node.evictable) || (!b && !node.evictable)
      · rw [if_pos hsame] at h; cases h; exact ⟨hF, hL, hPF, hPL, hT⟩
      rw [if_neg hsame] at h
      obtain ⟨hmem, hkey⟩ := getNode_some hc
      have key : ∀ s₂ : RState, s₂.fifo = replaceNode s.fifo node { node with evictable := b } →
          s₂.lru = replaceNode s.lru node { node with evictable := b } →
          s₂.k = s.k → s₂.clock = s.clock → OrdInv s₂ := by
        intro s₂ e1 e2 ek ec
        rcases node_side hN hmem with ⟨hf, hnl⟩ | ⟨hl, hnf⟩
        · refine ⟨?_, ?_, ?_, ?_, ?_⟩
          · intro n hn
            rw [e1] at hn
            rcases mem_replaceNode hn with rfl | hn'
            · exact ek ▸ hF node hf
            · exact ek ▸ hF n hn'
          · rw [e2, replaceNode_of_not_mem hnl, ek]
            exact hL
          · rw [e1]
            exact pairwise_replaceNode rfl hPF
          · rw [e2, replaceNode_of_not_mem hnl]
            exact hPL
          · intro n hn
            rw [e1, e2, replaceNode_of_not_mem hnl] at hn
            rw [ec]
            rcases List.mem_append.mp hn with hn' | hn'
            · rcases mem_replaceNode hn' with rfl | hn''
              · have := hT node hmem
                dsimp only
                omega
              · exact hT n (List.mem_append.mpr (Or.inl hn''))
            · exact hT n (List.mem_append.mpr (Or.inr hn'))
        · refine ⟨?_, ?_, ?_, ?_, ?_⟩
          · rw [e1, replaceNode_of_not_mem hnf, ek]
            exact hF
          · intro n hn
            rw [e2] at hn
            rcases mem_replaceNode hn with rfl | hn'
            · exact ek ▸ hL node hl
            · exact ek ▸ hL n hn'
          · rw [e1, replaceNode_of_not_mem hnf]
            exact hPF
          · rw [e2]
            exact pairwise_replaceNode rfl hPL
          · intro n hn
            rw [e1, e2, replaceNode_of_not_mem hnf] at hn
            rw [ec]
            rcases List.mem_append.mp hn with hn' | hn'
            · exact hT n (List.mem_append.mpr (Or.inl hn'))
            · rcases mem_replaceNode hn' with rfl | hn''
              · have := hT node hmem
                dsimp only
                omega
              · exact hT n (List.mem_append.mpr (Or.inr hn''))
      by_cases hfq : node.frequency ≥ 2
      · rw [if_pos hfq] at h
        cases h
        exact key _ rfl rfl rfl rfl
      · rw [if_neg hfq] at h
        cases h
        exact key _ rfl rfl rfl rfl

theorem ordInv_sublists {s s' : RState}
    (e1 : s'.fifo.Sublist s.fifo) (e2 : s'.lru.Sublist s.lru)
    (ek : s'.k = s.k) (ec : s'.clock = s.clock) (hO : OrdInv s) : OrdInv s' := by
  obtain ⟨hF, hL, hPF, hPL, hT⟩ := hO
  refine ⟨?_, ?_, ?_, ?_, ?_⟩
  · exact fun n hn => ek ▸ hF n (e1.subset hn)
  · exact fun n hn => ek ▸ hL n (e2.subset hn)
  · exact hPF.sublist e1
  · exact hPL.sublist e2
  · intro n hn
    rw [ec]
    rcases List.mem_append.mp hn with hn' | hn'
    · exact hT n (List.mem_append.mpr (Or.inl (e1.subset hn')))
    · exact hT n (List.mem_append.mpr (Or.inr (e2.subset hn')))

theorem ordInv_Remove {s : RState} {f : Int} (hO : OrdInv s) : OrdInv (Remove s f) := by
  unfold Remove
  cases hc : getNode s f with
  | none => exact hO
  | some node =>
      dsimp only
      by_cases hev : node.evictable
      · rw [if_pos hev]
        by_cases hfq : node.frequency ≥ 2
        · rw [if_pos hfq]
          exact @ordInv_sublists s _ (List.erase_sublist _ _) (List.erase_sublist _ _) rfl rfl hO
        · rw [if_neg hfq]
          exact @ordInv_sublists s _ (List.erase_sublist _ _) (List.erase_sublist _ _) rfl rfl hO
      · rw [if_neg hev]
        exact hO

theorem ordInv_Evict {s : RState} (hO : OrdInv s) : OrdInv (Evict s).2 := by
  unfold Evict
  by_cases hz : Size s = 0
  · rw [if_pos hz]; exact hO
  rw [if_neg hz]
  cases hf : s.fifo.reverse.find? (fun n => n.evictable) with
  | some node =>
      dsimp only
      exact @ordInv_sublists s _ (List.erase_sublist _ _) (List.Sublist.refl _) rfl rfl hO
  | none =>
      cases hl : s.lru.reverse.find? (fun n => n.evictable) with
      | some node =>
          dsimp only
          exact @ordInv_sublists s _ (List.Sublist.refl _) (List.erase_sublist _ _) rfl rfl hO
      | none => exact hO

theorem k_applyOp (s : RState) (op : ROp) : (applyOp s op).k = s.k := by
  cases op with
  | access f =>
      simp only [applyOp]
      cases h : RecordAccess s f with
      | ok s' =>
          unfold RecordAccess at h
          by_cases hg : castSizeT f > s.numFrames
          · rw [if_pos hg] at h; cases h
          rw [if_neg hg] at h
          cases hc : getNode s f with
          | none => rw [hc] at h; dsimp only at h; cases h; rfl
          | some node =>
              rw [hc] at h
              dsimp only at h
              by_cases hfr : node.frequency + 1 ≥ s.k
              · rw [if_pos hfr] at h; cases h; rfl
              · rw [if_neg hfr] at h; cases h; rfl
      | error e => rfl
  | setEvict f b =>
      simp only [applyOp]
      cases h : SetEvictable s f b with
      | ok s' =>
          unfold SetEvictable at h
          by_cases hg : castSizeT f > s.numFrames
          · rw [if_pos hg] at h; cases h
          rw [if_neg hg] at h
          cases hc : getNode s f with
          | none => rw [hc] at h; dsimp only at h; cases h; rfl
          | some node =>
              rw [hc] at h
              dsimp only at h
              by_cases hsame : (b && node.evictable) || (!b && !node.evictable)
              · rw [if_pos hsame] at h; cases h; rfl
              rw [if_neg hsame] at h
              by_cases hfq : node.frequency ≥ 2
              · rw [if_pos hfq] at h; cases h; rfl
              · rw [if_neg hfq] at h; cases h; rfl
      | error e => rfl
  | evictOp =>
      simp only [applyOp]
      unfold Evict
      by_cases hz : Size s = 0
      · rw [if_pos hz]
      rw [if_neg hz]
      cases hf : s.fifo.reverse.find? (fun n => n.evictable) with
      | some node => rfl
      | none =>
          cases hl : s.lru.reverse.find? (fun n => n.evictable) with
          | some node => rfl
          | none => rfl
  | removeOp f =>
      simp only [applyOp]
      unfold Remove
      cases hc : getNode s f with
      | none => rfl
      | some node =>
          dsimp only
          by_cases hev : node.evictable
          · rw [if_pos hev]
            by_cases hfq : node.frequency ≥ 2
            · rw [if_pos hfq]
            · rw [if_neg hfq]
          · rw [if_neg hev]

theorem ordInv_applyOp {s : RState} (op : ROp) (hk : 2 ≤ s.k) (hS : SumInv s)
    (hO : OrdInv s) : OrdInv (applyOp s op) := by
  cases op with
  | access f =>
      simp only [applyOp]
      cases h : RecordAccess s f with
      | ok s' => exact ordInv_RecordAccess hk hS h hO
      | error e => exact hO
  | setEvict f b =>
      simp only [applyOp]
      cases h : SetEvictable s f b with
      | ok s' => exact ordInv_SetEvictable hS h hO
      | error e => exact hO
  | evictOp => exact ordInv_Evict hO
  | removeOp f => exact ordInv_Remove hO

theorem ordInv_runOps (numFrames k : Nat) (ops : List ROp) (hk : 2 ≤ k) :
    OrdInv (runOps numFrames k ops) := by
  unfold runOps
  have main : ∀ (l : List ROp) (s0 : RState), 2 ≤ s0.k → SumInv s0 → OrdInv s0 →
      OrdInv (l.foldl applyOp s0) := by
    intro l
    induction l with
    | nil => exact fun s0 _ _ h => h
    | cons op ops ih =>
        intro s0 hk0 hS0 hO0
        exact ih _ ((k_applyOp s0 op).symm ▸ hk0) (sumInv_applyOp op hS0)
          (ordInv_applyOp op hk0 hS0 hO0)
  exact main ops _ hk (sumInv_rInit numFrames k) (ordInv_rInit numFrames k)

end LRUK

namespace LRUK

theorem countEvictable_zero {s : RState} (h : countEvictable s = 0) :
    ∀ n ∈ s.fifo ++ s.lru, n.evictable = false := by
  unfold countEvictable at h
  intro n hn
  have := List.filter_eq_nil.mp (List.length_eq_zero.mp h) n hn
  simpa using this

theorem evict_none_iff {s : RState}
    (hC : s.fifoSize + s.lruSize = (countEvictable s : Int)) :
    (Evict s).1 = none ↔ countEvictable s = 0 := by
  unfold Evict
  by_cases hz : Size s = 0
  · rw [if_pos hz]
    unfold Size at hz
    simp only [true_iff]
    omega
  rw [if_neg hz]
  have hcnt : countEvictable s ≠ 0 := by
    unfold Size at hz
    intro h0
    rw [h0] at hC
    omega
  cases hf : s.fifo.reverse.find? (fun n => n.evictable) with
  | some node => simpa using hcnt
  | none =>
      cases hl : s.lru.reverse.find? (fun n => n.evictable) with
      | some node => simpa using hcnt
      | none =>
          exfalso
          apply hcnt
          unfold countEvictable
          rw [List.length_eq_zero, List.filter_eq_nil]
          intro n hn
          rcases List.mem_append.mp hn with hn' | hn'
          · simpa using List.find?_eq_none.mp hf n (List.mem_reverse.mpr hn')
          · simpa using List.find?_eq_none.mp hl n (List.mem_reverse.mpr hn')

theorem evict_some_tracked {s : RState} {f : Int} (h : (Evict s).1 = some f) :
    ∃ n ∈ s.fifo ++ s.lru, n.key = f ∧ n.evictable = true := by
  unfold Evict at h
  by_cases hz : Size s = 0
  · rw [if_pos hz] at h; cases h
  rw [if_neg hz] at h
  cases hf : s.fifo.reverse.find? (fun n => n.evictable) with
  | some node =>
      rw [hf] at h
      cases h
      exact ⟨node, List.mem_append.mpr
        (Or.inl (List.mem_reverse.mp (List.mem_of_find?_eq_some hf))),
        rfl, by simpa using List.find?_some hf⟩
  | none =>
      rw [hf] at h
      cases hl : s.lru.reverse.find? (fun n => n.evictable) with
      | some node =>
          rw [hl] at h
          cases h
          exact ⟨node, List.mem_append.mpr
            (Or.inr (List.mem_reverse.mp (List.mem_of_find?_eq_some hl))),
            rfl, by simpa using List.find?_some hl⟩
      | none => rw [hl] at h; cases h

/-- On any state satisfying both invariants, `Evict` chooses exactly the
victim demanded by the specification policy. -/
theorem evict_eq_specVictim {s : RState} (hS : SumInv s) (hO : OrdInv s) :
    (Evict s).1 = specVictim s := by
  obtain ⟨hN, hC⟩ := hS
  obtain ⟨hF, hL, hPF, hPL, hT⟩ := hO
  have hFifoCands : (s.fifo ++ s.lru).filter
      (fun n => n.evictable && decide (n.frequency < s.k)) = s.fifo.filter (fun n => n.evictable) := by
    rw [List.filter_append]
    have h2 : s.lru.filter (fun n => n.evictable && decide (n.frequency < s.k)) = [] := by
      rw [List.filter_eq_nil]
      intro n hn
      have := hL n hn
      simp [Nat.not_lt.mpr this]
    have h1 : s.fifo.filter (fun n => n.evictable && decide (n.frequency < s.k))
        = s.fifo.filter (fun n => n.evictable) := by
      apply List.filter_congr
      intro n hn
      have := hF n hn
      simp [this]
    rw [h1, h2, List.append_nil]
  have hLruCands : (s.fifo ++ s.lru).filter
      (fun n => n.evictable && decide (s.k ≤ n.frequency)) = s.lru.filter (fun n => n.evictable) := by
    rw [List.filter_append]
    have h1 : s.fifo.filter (fun n => n.evictable && decide (s.k ≤ n.frequency)) = [] := by
      rw [List.filter_eq_nil]
      intro n hn
      have := hF n hn
      simp [Nat.not_le.mpr this]
    have h2 : s.lru.filter (fun n => n.evictable && decide (s.k ≤ n.frequency))
        = s.lru.filter (fun n => n.evictable) := by
      apply List.filter_congr
      intro n hn
      have := hL n hn
      simp [this]
    rw [h1, h2, List.nil_append]
  unfold Evict specVictim
  dsimp only
  rw [hFifoCands, hLruCands]
  rw [minByFirstT_sorted (hPF.filter _), minByLastT_sorted (hPL.filter _)]
  by_cases hz : Size s = 0
  · rw [if_pos hz]
    unfold Size at hz
    have hcnt : countEvictable s = 0 := by omega
    have hall := countEvictable_zero hcnt
    have hfe : s.fifo.filter (fun n => n.evictable) = [] := by
      rw [List.filter_eq_nil]
      intro n hn
      simp [hall n (List.mem_append.mpr (Or.inl hn))]
    have hle : s.lru.filter (fun n => n.evictable) = [] := by
      rw [List.filter_eq_nil]
      intro n hn
      simp [hall n (List.mem_append.mpr (Or.inr hn))]
    rw [hfe, hle]
    rfl
  rw [if_neg hz]
  have hcnt : countEvictable s ≠ 0 := by
    unfold Size at hz
    intro h0
    rw [h0] at hC
    omega
  rw [find?_reverse, find?_reverse]
  cases hf : (s.fifo.filter (fun n => n.evictable)).getLast? with
  | some node => rfl
  | none =>
      cases hl : (s.lru.filter (fun n => n.evictable)).getLast? with
      | some node => rfl
      | none =>
          exfalso
          apply hcnt
          unfold countEvictable
          rw [List.length_eq_zero, List.filter_append,
            List.getLast?_eq_none_iff.mp hf, List.getLast?_eq_none_iff.mp hl]
          rfl

end LRUK

namespace LRUK

/-- RecordAccess fails (the C++ throw) exactly when the size_t cast of the
frame id exceeds num_frames. -/
theorem recordAccess_none_iff (s : RState) (f : Int) :
    (RecordAccess s f).toOption = none ↔ castSizeT f > s.numFrames := by
  unfold RecordAccess
  by_cases hg : castSizeT f > s.numFrames
  · rw [if_pos hg]
    exact iff_of_true rfl hg
  · rw [if_neg hg]
    cases hc : getNode s f with
    | none => exact iff_of_false (by simp [Except.toOption]) hg
    | some node =>
        dsimp only
        by_cases hfr : node.frequency + 1 ≥ s.k
        · rw [if_pos hfr]
          exact iff_of_false (by simp [Except.toOption]) hg
        · rw [if_neg hfr]
          exact iff_of_false (by simp [Except.toOption]) hg

/-- SetEvictable fails (the C++ throw) exactly when the size_t cast of the
frame id exceeds num_frames. -/
theorem setEvictable_none_iff (s : RState) (f : Int) (b : Bool) :
    (SetEvictable s f b).toOption = none ↔ castSizeT f > s.numFrames := by
  unfold SetEvictable
  by_cases hg : castSizeT f > s.numFrames
  · rw [if_pos hg]
    exact iff_of_true rfl hg
  · rw [if_neg hg]
    cases hc : getNode s f with
    | none => exact iff_of_false (by simp [Except.toOption]) hg
    | some node =>
        dsimp only
        by_cases hsame : (b && node.evictable) || (!b && !node.evictable)
        · rw [if_pos hsame]
          exact iff_of_false (by simp [Except.toOption]) hg
        · rw [if_neg hsame]
          by_cases hfq : node.frequency ≥ 2
          · rw [if_pos hfq]
            exact iff_of_false (by simp [Except.toOption]) hg
          · rw [if_neg hfq]
            exact iff_of_false (by simp [Except.toOption]) hg

end LRUK

namespace LRUK

theorem find?_key_replaceNode {l : List LinkedNode} {old new : LinkedNode} {f : Int}
    (hk : new.key = old.key) (h : l.find? (fun n => n.key == f) = some old) :
    (replaceNode l old new).find? (fun n => n.key == f) = some new := by
  induction l with
  | nil => cases h
  | cons a l ih =>
      by_cases haf : (a.key == f) = true
      · rw [@List.find?_cons_of_pos _ (fun n => n.key == f) a l haf] at h
        injection h with h
        subst h
        unfold replaceNode
        simp only [List.map_cons, if_pos rfl]
        exact List.find?_cons_of_pos _ (by simpa [hk] using haf)
      · rw [@List.find?_cons_of_neg _ (fun n => n.key == f) a l haf] at h
        have hokey : (old.key == f) = true := by simpa using List.find?_some h
        have hao : a ≠ old := by
          intro e
          rw [e] at haf
          exact haf hokey
        unfold replaceNode
        simp only [List.map_cons, if_neg hao]
        rw [@List.find?_cons_of_neg _ (fun n => n.key == f) a
          (List.map (fun n => if n = old then new else n) l) haf]
        exact ih h

/-- After a successful `SetEvictable(f, true)`, the tracked node of `f`
carries the evictable flag. -/
theorem getNode_setEvictable_true {s s' : RState} {f : Int}
    (hok : SetEvictable s f true = .ok s')
    (htrk : (getNode s f).isSome = true) :
    ∃ node, getNode s' f = some node ∧ node.evictable = true := by
  unfold SetEvictable at hok
  by_cases hg : castSizeT f > s.numFrames
  · rw [if_pos hg] at hok; cases hok
  rw [if_neg hg] at hok
  cases hc : getNode s f with
  | none => rw [hc] at htrk; cases htrk
  | some node =>
      rw [hc] at hok
      dsimp only at hok
      by_cases hsame : (true && node.evictable) || (!true && !node.evictable)
      · rw [if_pos hsame] at hok
        cases hok
        have hev : node.evictable = true := by
          cases he : node.evictable
          · rw [he] at hsame; simp at hsame
          · rfl
        exact ⟨node, hc, hev⟩
      · rw [if_neg hsame] at hok
        have hfind : (replaceNode (s.fifo ++ s.lru) node { node with evictable := true }).find?
            (fun n => n.key == f) = some { node with evictable := true } :=
          find?_key_replaceNode rfl hc
        have hsplit : replaceNode (s.fifo ++ s.lru) node { node with evictable := true }
            = replaceNode s.fifo node { node with evictable := true }
              ++ replaceNode s.lru node { node with evictable := true } := by
          unfold replaceNode
          exact List.map_append _ _ _
        by_cases hfq : node.frequency ≥ 2
        · rw [if_pos hfq] at hok
          cases hok
          refine ⟨{ node with evictable := true }, ?_, rfl⟩
          unfold getNode
          dsimp only
          rw [← hsplit]
          exact hfind
        · rw [if_neg hfq] at hok
          cases hok
          refine ⟨{ node with evictable := true }, ?_, rfl⟩
          unfold getNode
          dsimp only
          rw [← hsplit]
          exact hfind

end LRUK

namespace LRUK

theorem evict_none_eq {s : RState} (h : (Evict s).1 = none) : Evict s = (none, s) := by
  unfold Evict at h ⊢
  by_cases hz : Size s = 0
  · rw [if_pos hz]
  rw [if_neg hz] at h ⊢
  cases hf : s.fifo.reverse.find? (fun n => n.evictable) with
  | some node => rw [hf] at h; simp at h
  | none =>
      rw [hf] at h
      dsimp only at h ⊢
      cases hl : s.lru.reverse.find? (fun n => n.evictable) with
      | some node => rw [hl] at h; simp at h
      | none => rfl

end LRUK

namespace BPM

theorem pagesGet_pagesSet_self {pages : List Page} {f : Int} {p : Page}
    (hlt : f.toNat < pages.length) : pagesGet (pagesSet pages f p) f = p := by
  unfold pagesGet pagesSet
  rw [List.getD_eq_getElem?_getD, List.getElem?_set_self hlt]
  rfl

theorem diskGet_diskWrite_self (d : List (Int × Nat)) (id : Int) (v : Nat) :
    diskGet (diskWrite d id v) id = some v := by
  unfold diskGet diskWrite
  by_cases hmem : d.any (fun p => p.1 == id)
  · rw [if_pos hmem]
    induction d with
    | nil => simp at hmem
    | cons a d ih =>
        by_cases ha : a.1 = id
        · simp [List.find?_cons, ha]
        · simp only [List.any_cons, Bool.or_eq_true] at hmem
          rcases hmem with h | h
          · simp at h
            exact absurd h ha
          · simp only [List.map_cons]
            rw [List.find?_cons_of_neg _ (by simp [ha])]
            exact ih h
  · rw [if_neg hmem]
    induction d with
    | nil => simp [List.find?_cons]
    | cons a d ih =>
        simp only [List.any_cons, Bool.or_eq_true, not_or] at hmem
        rw [List.cons_append, List.find?_cons_of_neg _ (by simpa using hmem.1)]
        exact ih (by simpa using hmem.2)
end BPM

namespace BPM

theorem newPgInstall_spec (s2 : BState) (f : Int) :
    (∀ pid s', newPgInstall s2 f = .ok (some pid, s') →
        pid = s2.nextPageId ∧ s'.nextPageId = s2.nextPageId + 1 ∧
        s'.pages = pagesSet s2.pages f
          { pageId := s2.nextPageId, pinCount := 1, isDirty := false, data := 0 } ∧
        s'.disk = s2.disk ∧ s'.freeList = s2.freeList) ∧
    (∀ s', newPgInstall s2 f ≠ .ok (none, s')) := by
  constructor
  · intro pid s' h
    unfold newPgInstall at h
    dsimp only at h
    cases hpt : EHT.Insert s2.pageTable s2.nextPageId f with
    | error e => rw [hpt] at h; simp at h
    | ok pt2 =>
        rw [hpt] at h
        dsimp only at h
        cases hr2 : LRUK.RecordAccess s2.repl f with
        | error e => rw [hr2] at h; simp at h
        | ok r2 =>
            rw [hr2] at h
            dsimp only at h
            cases hr3 : LRUK.SetEvictable r2 f false with
            | error e => rw [hr3] at h; simp at h
            | ok r3 =>
                rw [hr3] at h
                dsimp only at h
                injection h with h
                injection h with h1 h2
                injection h1 with h1
                subst h1
                subst h2
                exact ⟨rfl, rfl, rfl, rfl, rfl⟩
  · intro s' h
    unfold newPgInstall at h
    dsimp only at h
    cases hpt : EHT.Insert s2.pageTable s2.nextPageId f with
    | error e => rw [hpt] at h; simp at h
    | ok pt2 =>
        rw [hpt] at h
        dsimp only at h
        cases hr2 : LRUK.RecordAccess s2.repl f with
        | error e => rw [hr2] at h; simp at h
        | ok r2 =>
            rw [hr2] at h
            dsimp only at h
            cases hr3 : LRUK.SetEvictable r2 f false with
            | error e => rw [hr3] at h; simp at h
            | ok r3 =>
                rw [hr3] at h
                dsimp only at h
                injection h with h
                injection h with h1 h2
                cases h1

end BPM

set_option maxRecDepth 100000 in
/-- C3 (counterexample): with k = 1 and num_frames = 3, after accessing frame 1
twice and frame 2 once and marking both evictable, every frame has access
count ≥ k, so by the claimed policy the FIFO region (count < k) is empty and
evict() should return the oldest evictable frame of the LRU region by most
recent access, which is frame 1; the code instead returns frame 2, which still
sits in its FIFO list.  The claim as stated (for every replacer state, with
regions delimited by access count) is therefore false. -/
theorem c3_counterexample :
    (LRUK.Evict (LRUK.runOps 3 1
      [.access 1, .access 1, .access 2, .setEvict 1 true, .setEvict 2 true])).1 = some 2 ∧
    LRUK.specVictim (LRUK.runOps 3 1
      [.access 1, .access 1, .access 2, .setEvict 1 true, .setEvict 2 true]) = some 1 := by
  constructor <;> rfl

/-- C3 (amended): for every tuning constant k ≥ 2 and every replacer state
reachable by a sequence of record_access / set_evictable / evict / remove
calls, evict() returns the oldest evictable frame with access count < k (by
first access); if no such frame exists, the oldest evictable frame with access
count ≥ k (by most recent access); and it returns none exactly when no tracked
frame is evictable.  In particular, with k = 2 and 3 frames, after the access
sequence 1,2,3,1,2 and marking all three frames evictable, evict() returns
frame 3. -/
theorem c3_evict_policy (numFrames k : Nat) (ops : List LRUK.ROp) (hk : 2 ≤ k) :
    ((LRUK.Evict (LRUK.runOps numFrames k ops)).1
       = LRUK.specVictim (LRUK.runOps numFrames k ops)) ∧
    ((LRUK.Evict (LRUK.runOps numFrames k ops)).1 = none ↔
       LRUK.countEvictable (LRUK.runOps numFrames k ops) = 0) ∧
    (LRUK.Evict (LRUK.runOps 3 2 lrukScenario)).1 = some 3 := by
  have hS := LRUK.sumInv_runOps numFrames k ops
  have hO := LRUK.ordInv_runOps numFrames k ops hk
  refine ⟨LRUK.evict_eq_specVictim hS hO, LRUK.evict_none_iff hS.2, ?_⟩
  set_option maxRecDepth 100000 in rfl

/-- Witness for c3_evict_policy at k = 2 on the spec scenario. -/
theorem c3_evict_policy_witness :
    (2 ≤ 2) ∧ (LRUK.Evict (LRUK.runOps 3 2 lrukScenario)).1 = some 3 :=
  ⟨by decide, (c3_evict_policy 3 2 lrukScenario (by decide)).2.2⟩

/-- C4: for every sequence of replacer calls with valid frame ids and any
k ≥ 1, size() equals the number of currently tracked frames whose evictable
flag is true. -/
theorem c4_size_counts_evictable (numFrames k : Nat) (ops : List LRUK.ROp)
    (hk : 1 ≤ k) (hv : ∀ op ∈ ops, LRUK.ValidOp numFrames op) :
    LRUK.Size (LRUK.runOps numFrames k ops)
      = (LRUK.countEvictable (LRUK.runOps numFrames k ops) : Int) := by
  have hC := (LRUK.sumInv_runOps numFrames k ops).2
  unfold LRUK.Size
  omega

/-- Witness for c4_size_counts_evictable on a concrete run. -/
theorem c4_size_counts_evictable_witness :
    LRUK.Size (LRUK.runOps 3 2 [.access 0, .access 1, .setEvict 0 true])
      = (LRUK.countEvictable
          (LRUK.runOps 3 2 [.access 0, .access 1, .setEvict 0 true]) : Int) :=
  c4_size_counts_evictable 3 2 [.access 0, .access 1, .setEvict 0 true]
    (by decide) (by decide)

/-- C10 (counterexample): with num_frames = 3, the frame id 3 lies outside
[0, num_frames), yet record_access and set_evictable accept it without
signalling the fatal error, because the guard in the source compares with
`>` rather than `>=`.  The claim as stated is therefore false. -/
theorem c10_counterexample :
    (LRUK.RecordAccess (LRUK.rInit 3 2) 3).toOption.isSome = true ∧
    (LRUK.SetEvictable (LRUK.rInit 3 2) 3 true).toOption.isSome = true := by
  constructor <;> rfl

/-- C10 (amended): record_access and set_evictable signal the fatal
programmer error exactly for the frame ids whose size_t cast exceeds
num_frames, that is for negative ids and for ids strictly greater than
num_frames; the boundary id equal to num_frames is accepted, and every id in
[0, num_frames) is accepted.  The error propagates before any mutation, so on
that path the replacer state is unchanged. -/
theorem c10_frame_guard (s : LRUK.RState) (f : Int) (b : Bool) :
    ((LRUK.RecordAccess s f).toOption = none ↔ LRUK.castSizeT f > s.numFrames) ∧
    ((LRUK.SetEvictable s f b).toOption = none ↔ LRUK.castSizeT f > s.numFrames) ∧
    (0 ≤ f → f < (s.numFrames : Int) → (s.numFrames : Nat) ≤ 2 ^ 64 →
      (LRUK.RecordAccess s f).toOption.isSome = true ∧
      (LRUK.SetEvictable s f b).toOption.isSome = true) := by
  have hra := LRUK.recordAccess_none_iff s f
  have hse := LRUK.setEvictable_none_iff s f b
  refine ⟨hra, hse, ?_⟩
  intro h0 hlt hbound
  have hcast : LRUK.castSizeT f = f.toNat := by
    unfold LRUK.castSizeT
    congr 1
    apply Int.emod_eq_of_lt h0
    calc f < (s.numFrames : Int) := hlt
    _ ≤ ((2 : Int) ^ 64) := by exact_mod_cast hbound
  have hle : ¬LRUK.castSizeT f > s.numFrames := by
    rw [hcast]
    have : f.toNat < s.numFrames := by omega
    omega
  constructor
  · rw [← Option.ne_none_iff_isSome]
    intro hcontra
    exact hle (hra.mp hcontra)
  · rw [← Option.ne_none_iff_isSome]
    intro hcontra
    exact hle (hse.mp hcontra)

/-- Witness for c10_frame_guard: both directions at concrete inputs. -/
theorem c10_frame_guard_witness :
    (LRUK.RecordAccess (LRUK.rInit 3 2) 2).toOption.isSome = true ∧
    (LRUK.RecordAccess (LRUK.rInit 3 2) (-1)).toOption = none :=
  ⟨((c10_frame_guard (LRUK.rInit 3 2) 2 true).2.2 (by decide) (by decide)
      (by decide)).1,
   (c10_frame_guard (LRUK.rInit 3 2) (-1) true).1.mpr (by decide)⟩

/-- C2 (counterexample): inserting items with hashes 0,1,2,3 at bucket
capacity 2 from global depth 0 ends with global depth 1 and two buckets, not
global depth 2 with four buckets: after the single split, keys 0 and 2 share
the suffix-0 bucket and keys 1 and 3 share the suffix-1 bucket, and neither
bucket overflows again.  The claim as stated is therefore false. -/
theorem c2_counterexample :
    ehtRun.toOption.map EHT.GetGlobalDepth = some 1 ∧
    ehtRun.toOption.map EHT.GetGlobalDepth ≠ some 2 ∧
    ehtRun.toOption.map EHT.GetNumBuckets = some 2 := by
  refine ⟨rfl, by decide, rfl⟩

/-- C2 (amended): starting the extendible hash table at global depth 0 with
bucket capacity 2, inserting 4 distinct items whose hash values are 0, 1, 2
and 3 ends in a state with global depth 1 and two live buckets, each with
local depth 1 (holding the keys of suffix 0 and of suffix 1 respectively);
all four keys remain findable with their values. -/
theorem c2_extendible_hash_scenario :
    ehtRun.toOption.map EHT.GetGlobalDepth = some 1 ∧
    ehtRun.toOption.map EHT.GetNumBuckets = some 2 ∧
    ehtRun.toOption.map (fun s => EHT.GetLocalDepth s 0) = some 1 ∧
    ehtRun.toOption.map (fun s => EHT.GetLocalDepth s 1) = some 1 ∧
    ehtRun.toOption.map (fun s => EHT.Find s 0) = some (some 100) ∧
    ehtRun.toOption.map (fun s => EHT.Find s 1) = some (some 101) ∧
    ehtRun.toOption.map (fun s => EHT.Find s 2) = some (some 102) ∧
    ehtRun.toOption.map (fun s => EHT.Find s 3) = some (some 103) := by
  refine ⟨rfl, rfl, rfl, rfl, rfl, rfl, rfl, rfl⟩

/-- C9: unpin_page(page_id, dirty) returns false and leaves the state
unchanged when the page is not resident or its pin count is already zero (the
source tests `<= 0`); otherwise it decrements the pin count, marks the frame
evictable in the replacer exactly when the count reaches zero, OR-merges the
dirty argument into the dirty flag (never clearing a set flag), and returns
true, leaving the directory, free list and disk untouched. -/
theorem c9_unpin_page (s : BPM.BState) (pid : Int) (dirty : Bool)
    (hlen : s.pages.length = s.poolSize)
    (hnum : s.repl.numFrames = s.poolSize)
    (hpool : s.poolSize ≤ 2 ^ 64)
    (hidx : ∀ idx, EHT.Find s.pageTable pid = some idx → 0 ≤ idx ∧ idx < (s.poolSize : Int))
    (htrk : ∀ idx, EHT.Find s.pageTable pid = some idx →
      (LRUK.getNode s.repl idx).isSome = true) :
    (EHT.Find s.pageTable pid = none → BPM.UnpinPgImp s pid dirty = .ok (false, s)) ∧
    (∀ idx, EHT.Find s.pageTable pid = some idx →
      (BPM.pagesGet s.pages idx).pinCount ≤ 0 →
      BPM.UnpinPgImp s pid dirty = .ok (false, s)) ∧
    (∀ idx, EHT.Find s.pageTable pid = some idx →
      0 < (BPM.pagesGet s.pages idx).pinCount →
      ∃ s', BPM.UnpinPgImp s pid dirty = .ok (true, s') ∧
        (BPM.pagesGet s'.pages idx).pinCount = (BPM.pagesGet s.pages idx).pinCount - 1 ∧
        (BPM.pagesGet s'.pages idx).isDirty = ((BPM.pagesGet s.pages idx).isDirty || dirty) ∧
        (BPM.pagesGet s'.pages idx).pageId = (BPM.pagesGet s.pages idx).pageId ∧
        ((BPM.pagesGet s.pages idx).pinCount - 1 = 0 →
          ∃ node, LRUK.getNode s'.repl idx = some node ∧ node.evictable = true) ∧
        ((BPM.pagesGet s.pages idx).pinCount - 1 ≠ 0 → s'.repl = s.repl) ∧
        s'.pageTable = s.pageTable ∧ s'.freeList = s.freeList ∧ s'.disk = s.disk) := by
  refine ⟨?_, ?_, ?_⟩
  · intro hnone
    unfold BPM.UnpinPgImp
    rw [hnone]
  · intro idx hfind hpin
    unfold BPM.UnpinPgImp
    rw [hfind]
    dsimp only
    rw [if_pos hpin]
  · intro idx hfind hpin
    have hrange := hidx idx hfind
    have htoNat : idx.toNat < s.pages.length := by
      rw [hlen]
      omega
    have hguard : ¬LRUK.castSizeT idx > s.repl.numFrames := by
      have hcast : LRUK.castSizeT idx = idx.toNat := by
        unfold LRUK.castSizeT
        congr 1
        apply Int.emod_eq_of_lt hrange.1
        calc idx < (s.poolSize : Int) := hrange.2
        _ ≤ ((2 : Int) ^ 64) := by exact_mod_cast hpool
      rw [hcast, hnum]
      have : idx.toNat < s.poolSize := by omega
      omega
    unfold BPM.UnpinPgImp
    rw [hfind]
    dsimp only
    rw [if_neg (by omega)]
    set p := BPM.pagesGet s.pages idx with hp
    set p2 := if dirty then { p with pinCount := p.pinCount - 1, isDirty := true }
      else { p with pinCount := p.pinCount - 1 } with hp2
    have hfields : p2.pinCount = p.pinCount - 1 ∧ p2.isDirty = (p.isDirty || dirty)
        ∧ p2.pageId = p.pageId := by
      cases dirty <;> simp [hp2]
    by_cases hz : p.pinCount - 1 = 0
    · rw [if_pos hz]
      cases hr : LRUK.SetEvictable s.repl idx true with
      | error e =>
          exfalso
          apply hguard
          exact (LRUK.setEvictable_none_iff s.repl idx true).mp (by rw [hr]; rfl)
      | ok r1 =>
          refine ⟨_, rfl, ?_, ?_, ?_, ?_, ?_, rfl, rfl, rfl⟩
          · rw [show BPM.pagesGet (BPM.pagesSet s.pages idx p2) idx = p2 from
              BPM.pagesGet_pagesSet_self htoNat]
            exact hfields.1
          · rw [show BPM.pagesGet (BPM.pagesSet s.pages idx p2) idx = p2 from
              BPM.pagesGet_pagesSet_self htoNat]
            exact hfields.2.1
          · rw [show BPM.pagesGet (BPM.pagesSet s.pages idx p2) idx = p2 from
              BPM.pagesGet_pagesSet_self htoNat]
            exact hfields.2.2
          · intro _
            exact LRUK.getNode_setEvictable_true hr (htrk idx hfind)
          · intro hcontra
            exact absurd hz hcontra
    · rw [if_neg hz]
      refine ⟨_, rfl, ?_, ?_, ?_, ?_, ?_, rfl, rfl, rfl⟩
      · rw [show BPM.pagesGet (BPM.pagesSet s.pages idx p2) idx = p2 from
          BPM.pagesGet_pagesSet_self htoNat]
        exact hfields.1
      · rw [show BPM.pagesGet (BPM.pagesSet s.pages idx p2) idx = p2 from
          BPM.pagesGet_pagesSet_self htoNat]
        exact hfields.2.1
      · rw [show BPM.pagesGet (BPM.pagesSet s.pages idx p2) idx = p2 from
          BPM.pagesGet_pagesSet_self htoNat]
        exact hfields.2.2
      · intro hcontra
        exact absurd hcontra hz
      · intro _
        rfl

/-- Witness for c9_unpin_page: unpinning resident page 5 (pin count 1) with
dirty = true. -/
theorem c9_unpin_page_witness :
    ∃ s', BPM.UnpinPgImp c9State 5 true = .ok (true, s') ∧
      (BPM.pagesGet s'.pages 0).pinCount = (BPM.pagesGet c9State.pages 0).pinCount - 1 ∧
      (BPM.pagesGet s'.pages 0).isDirty = ((BPM.pagesGet c9State.pages 0).isDirty || true) ∧
      (BPM.pagesGet s'.pages 0).pageId = (BPM.pagesGet c9State.pages 0).pageId ∧
      ((BPM.pagesGet c9State.pages 0).pinCount - 1 = 0 →
        ∃ node, LRUK.getNode s'.repl 0 = some node ∧ node.evictable = true) ∧
      ((BPM.pagesGet c9State.pages 0).pinCount - 1 ≠ 0 → s'.repl = c9State.repl) ∧
      s'.pageTable = c9State.pageTable ∧ s'.freeList = c9State.freeList ∧
      s'.disk = c9State.disk :=
  (c9_unpin_page c9State 5 true (by decide) (by decide) (by decide)
    (by
      intro idx h
      have h2 : some (0 : Int) = some idx := Eq.trans (by rfl) h
      injection h2 with h2
      subst h2
      exact ⟨by decide, by decide⟩)
    (by
      intro idx h
      have h2 : some (0 : Int) = some idx := Eq.trans (by rfl) h
      injection h2 with h2
      subst h2
      rfl)).2.2 0 (by rfl) (by decide)

/-- C8: new_page() returns a freshly allocated page with pin count 1 and
zeroed contents; the victim frame comes from the back of the free list, or
else from the replacer eviction (of an evictable tracked frame), and if the
evicted frame was dirty its old contents are on disk under its old page id in
the resulting state; new_page() returns null exactly when the free list is
empty and no frame is evictable. -/
theorem c8_new_page (s : BPM.BState)
    (hlen : s.pages.length = s.poolSize)
    (hfree : ∀ f ∈ s.freeList, 0 ≤ f ∧ f < (s.poolSize : Int))
    (hframes : ∀ n ∈ s.repl.fifo ++ s.repl.lru, 0 ≤ n.key ∧ n.key < (s.poolSize : Int))
    (hsum : s.repl.fifoSize + s.repl.lruSize = (LRUK.countEvictable s.repl : Int)) :
    (BPM.NewPgImp s = .ok (none, s) ↔
       s.freeList = [] ∧ LRUK.countEvictable s.repl = 0) ∧
    (∀ pid s', BPM.NewPgImp s = .ok (some pid, s') →
       pid = s.nextPageId ∧ s'.nextPageId = s.nextPageId + 1 ∧
       ∃ f : Int, 0 ≤ f ∧ f < (s.poolSize : Int) ∧
         BPM.pagesGet s'.pages f
           = { pageId := s.nextPageId, pinCount := 1, isDirty := false, data := 0 } ∧
         (s.freeList ≠ [] →
            f = s.freeList.getLast?.getD 0 ∧ s'.disk = s.disk) ∧
         (s.freeList = [] →
            (∃ n ∈ s.repl.fifo ++ s.repl.lru, n.key = f ∧ n.evictable = true) ∧
            ((BPM.pagesGet s.pages f).isDirty = true →
               BPM.diskGet s'.disk (BPM.pagesGet s.pages f).pageId
                 = some (BPM.pagesGet s.pages f).data))) := by
  by_cases hfe : s.freeList.isEmpty
  · have hfeq : s.freeList = [] := by simpa using hfe
    by_cases hcnt : LRUK.countEvictable s.repl = 0
    · have hev : LRUK.Evict s.repl = (none, s.repl) :=
        LRUK.evict_none_eq ((LRUK.evict_none_iff hsum).mpr hcnt)
      have hval : BPM.NewPgImp s = .ok (none, s) := by
        unfold BPM.NewPgImp
        dsimp only
        rw [if_pos hfe, hev]
      constructor
      · rw [hval]
        exact iff_of_true rfl ⟨hfeq, hcnt⟩
      · intro pid s' h
        rw [hval] at h
        simp at h
    · cases he : LRUK.Evict s.repl with
    | mk fst r1 =>
      cases fst with
      | none =>
          exfalso
          apply hcnt
          apply (LRUK.evict_none_iff hsum).mp
          rw [he]
      | some f =>
          have hev1 : (LRUK.Evict s.repl).1 = some f := by rw [he]
          obtain ⟨n, hn, hnkey, hnev⟩ := LRUK.evict_some_tracked hev1
          have hrange := hframes n hn
          have hfr : 0 ≤ f ∧ f < (s.poolSize : Int) := hnkey ▸ hrange
          have htoNat : f.toNat < s.pages.length := by
            rw [hlen]
            omega
          by_cases hdirty : (BPM.pagesGet s.pages f).isDirty
          · have hval : BPM.NewPgImp s = BPM.newPgInstall
                { s with repl := r1,
                         disk := BPM.diskWrite s.disk (BPM.pagesGet s.pages f).pageId
                           (BPM.pagesGet s.pages f).data,
                         pages := BPM.pagesSet s.pages f
                           { BPM.pagesGet s.pages f with isDirty := false },
                         pageTable := (EHT.Remove s.pageTable
                           (BPM.pagesGet s.pages f).pageId).2 } f := by
              unfold BPM.NewPgImp
              dsimp only
              rw [if_pos hfe, he]
              dsimp only
              rw [if_pos hdirty]
            have hspec := BPM.newPgInstall_spec
              { s with repl := r1,
                       disk := BPM.diskWrite s.disk (BPM.pagesGet s.pages f).pageId
                         (BPM.pagesGet s.pages f).data,
                       pages := BPM.pagesSet s.pages f
                         { BPM.pagesGet s.pages f with isDirty := false },
                       pageTable := (EHT.Remove s.pageTable
                         (BPM.pagesGet s.pages f).pageId).2 } f
            constructor
            · refine iff_of_false ?_ (fun hco => hcnt hco.2)
              intro hco
              rw [hval] at hco
              exact hspec.2 s hco
            · intro pid s' h
              rw [hval] at h
              obtain ⟨hpid, hnext, hpages, hdisk, _⟩ := hspec.1 pid s' h
              refine ⟨hpid, hnext, f, hfr.1, hfr.2, ?_, fun hcon => absurd hfeq hcon, ?_⟩
              · rw [hpages]
                have := @BPM.pagesGet_pagesSet_self
                  (BPM.pagesSet s.pages f
                    { BPM.pagesGet s.pages f with isDirty := false })
                  f
                  { pageId := s.nextPageId, pinCount := 1, isDirty := false, data := 0 }
                  (by rw [BPM.pagesSet, List.length_set]; exact htoNat)
                exact this
              · intro _
                refine ⟨⟨n, hn, hnkey, hnev⟩, fun _ => ?_⟩
                rw [hdisk]
                exact BPM.diskGet_diskWrite_self _ _ _
          · have hval : BPM.NewPgImp s = BPM.newPgInstall
                { s with repl := r1,
                         pageTable := (EHT.Remove s.pageTable
                           (BPM.pagesGet s.pages f).pageId).2 } f := by
              unfold BPM.NewPgImp
              dsimp only
              rw [if_pos hfe, he]
              dsimp only
              rw [if_neg hdirty]
            have hspec := BPM.newPgInstall_spec
              { s with repl := r1,
                       pageTable := (EHT.Remove s.pageTable
                         (BPM.pagesGet s.pages f).pageId).2 } f
            constructor
            · refine iff_of_false ?_ (fun hco => hcnt hco.2)
              intro hco
              rw [hval] at hco
              exact hspec.2 s hco
            · intro pid s' h
              rw [hval] at h
              obtain ⟨hpid, hnext, hpages, hdisk, _⟩ := hspec.1 pid s' h
              refine ⟨hpid, hnext, f, hfr.1, hfr.2, ?_, fun hcon => absurd hfeq hcon, ?_⟩
              · rw [hpages]
                exact BPM.pagesGet_pagesSet_self htoNat
              · intro _
                exact ⟨⟨n, hn, hnkey, hnev⟩, fun hcon => absurd hcon (by simpa using hdirty)⟩
  · have hfeq : s.freeList ≠ [] := by simpa using hfe
    have hval : BPM.NewPgImp s = BPM.newPgInstall
        { s with freeList := s.freeList.dropLast } (s.freeList.getLast?.getD 0) := by
      unfold BPM.NewPgImp
      dsimp only
      rw [if_neg hfe]
    have hspec := BPM.newPgInstall_spec
      { s with freeList := s.freeList.dropLast } (s.freeList.getLast?.getD 0)
    have hg : s.freeList.getLast? = some (s.freeList.getLast hfeq) :=
      List.getLast?_eq_getLast_of_ne_nil hfeq
    have hmem : s.freeList.getLast?.getD 0 ∈ s.freeList := by
      rw [hg]
      exact List.getLast_mem hfeq
    have hfr := hfree _ hmem
    have htoNat : (s.freeList.getLast?.getD 0).toNat < s.pages.length := by
      rw [hlen]
      omega
    constructor
    · refine iff_of_false ?_ (fun hco => hfeq hco.1)
      intro hco
      rw [hval] at hco
      exact hspec.2 s hco
    · intro pid s' h
      rw [hval] at h
      obtain ⟨hpid, hnext, hpages, hdisk, _⟩ := hspec.1 pid s' h
      refine ⟨hpid, hnext, s.freeList.getLast?.getD 0, hfr.1, hfr.2, ?_,
        fun _ => ⟨rfl, hdisk⟩, fun hcon => absurd hcon hfeq⟩
      rw [hpages]
      exact BPM.pagesGet_pagesSet_self htoNat

/-- Witness for c8_new_page: a fresh two-frame pool. -/
theorem c8_new_page_witness :
    BPM.NewPgImp (BPM.bInit 2 2) = .ok (none, BPM.bInit 2 2) ↔
      (BPM.bInit 2 2).freeList = [] ∧ LRUK.countEvictable (BPM.bInit 2 2).repl = 0 :=
  (c8_new_page (BPM.bInit 2 2) (by decide) (by decide) (by decide) (by decide)).1

namespace BPT

theorem exc_bind_ok {α β : Type} (x : α) (f : α → Except String β) :
    (Except.ok x >>= f : Except String β) = f x := rfl

theorem fetch_tFetch (t : Tree) (p q : Int) : fetch (tFetch t p) q = fetch t q := rfl

end BPT

/-- C1 (code bug): the round-trip at the index surface fails.  In the tree
grown by `c1base` key 72 is absent; `Insert 72` returns true and
`GetValue 72` finds the value, but `Remove 72` aborts on
`assert(cur_node->GetPageId() == parent_node->ValueAt(index))`: the insert
split the full root, and `InsertIntoParent` moved the leaf now owning 72
under the new internal page while retargeting only the newly created
sibling's parent pointer, so the rebalancing of `Remove` follows the stale
`parent_page_id_` into the old subtree, where the leaf is no longer a
child. -/
theorem c1_round_trip_violation :
    (BPT.c1base.bind (fun t => BPT.GetValue t 72)) = .ok none ∧
    ((BPT.c1base.bind (fun t => BPT.Insert t 72 7200)).map Prod.fst) = .ok true ∧
    ((BPT.c1base.bind (fun t => BPT.Insert t 72 7200)).bind
      (fun p => BPT.GetValue p.2 72)) = .ok (some 7200) ∧
    ((BPT.c1base.bind (fun t => BPT.Insert t 72 7200)).bind
      (fun p => BPT.Remove p.2 72)) = .error BPT.errAssert :=
  ⟨rfl, rfl, rfl, rfl⟩

/-- C5 (counterexample): after `c5run` the leaf [30,40] sits at parent
position 1; its left sibling [10,15,20] holds 3 > leaf_max / 2 = 2 entries,
an eligible donor.  `Remove 40` leaves the leaf underfull, yet the code
never touches the left sibling: the guard `index - 1 > 0` skips it entirely
for a node at position 1, so `RedistributeBrother` probes only the right
sibling [50,60], finds it poor, and returns false leaving the probed page
pinned; `MergeBrother` then merges with that RIGHT sibling and dies on
`assert(buffer_pool_manager_->DeletePage(...))`, because the emptied right
page still carries the leaked pin and `DeletePgImp` refuses to free a page
with a nonzero pin count.  The remove neither redistributes from the left
nor merges left - it aborts. -/
theorem c5_counterexample :
    (BPT.c5run.map (fun t => BPT.lookup t 1)) =
      .ok (some (.leaf
        { entries := [(10, 1000), (15, 1500), (20, 2000)], parent := 3, next := 2 })) ∧
    (BPT.c5run.bind (fun t => BPT.FindLeaf t 40)) =
      .ok (2, { entries := [(30, 3000), (40, 4000)], parent := 3, next := 4 }) ∧
    (BPT.c5run.bind (fun t => BPT.Remove t 40)) = .error BPT.errAssert :=
  ⟨rfl, rfl, rfl⟩

/-- C5 (amended): the left-sibling preference does hold for every node at
parent position at least 2.  For any tree, whenever the underfull leaf is
the parent's child at position `idx ≥ 2` and the left sibling at
`idx - 1` is a leaf holding more than `leaf_max / 2` entries,
`RedistributeBrother` moves the left sibling's last entry to the front of
the node and refreshes the parent separator, touching no right sibling; the
parent and the donor are fetched and unpinned around the transfer. -/
theorem c5_redistribute_left (t : BPT.Tree) (key : Int) (curPid : Int)
    (cleaf lleaf : BPT.LeafNode) (parent : BPT.InternalNode) (idx : Nat)
    (h1 : BPT.fetch t curPid = .ok (.leaf cleaf))
    (h2 : cleaf.parent ≠ 0)
    (h3 : BPT.fetch t cleaf.parent = .ok (.internal parent))
    (h4 : BPT.InternalNode.FindIndex parent key - 1 = idx)
    (h5 : curPid = BPT.InternalNode.ValueAt parent idx)
    (h6 : 2 ≤ idx)
    (h7 : BPT.fetch t (BPT.InternalNode.ValueAt parent (idx - 1)) = .ok (.leaf lleaf))
    (h8 : lleaf.entries.length > t.leafMax / 2) :
    BPT.RedistributeBrother t key curPid =
      .ok (true, BPT.tUnpin (BPT.tUnpin (BPT.setPage (BPT.setPage (BPT.setPage
        (BPT.tFetch (BPT.tFetch t cleaf.parent) (BPT.InternalNode.ValueAt parent (idx - 1)))
        (BPT.InternalNode.ValueAt parent (idx - 1))
        (.leaf (BPT.LeafNode.PopBack lleaf).2)) curPid
        (.leaf (BPT.LeafNode.PushFront cleaf (BPT.LeafNode.PopBack lleaf).1)))
        cleaf.parent (.internal (BPT.InternalNode.SetKeyAt parent idx
          (BPT.LeafNode.KeyAt
            (BPT.LeafNode.PushFront cleaf (BPT.LeafNode.PopBack lleaf).1) 0))))
        (BPT.InternalNode.ValueAt parent (idx - 1))) cleaf.parent) := by
  unfold BPT.RedistributeBrother
  rw [h1, BPT.exc_bind_ok]
  dsimp only [BPT.nodeParent]
  rw [if_neg h2, h3, BPT.exc_bind_ok]
  dsimp only
  rw [h4, if_neg (not_not_intro h5), if_pos (by omega : idx - 1 > 0),
    BPT.fetch_tFetch, h7, BPT.exc_bind_ok]
  dsimp only [BPT.nodeSize, BPT.nodeMinSize, BPT.tFetch]
  rw [if_pos h8]
  rfl

/-- Witness for c5_redistribute_left: in `c5wTree` the underfull leaf page 5
sits at parent position 3; redistribution takes the left sibling's last
entry (60), refreshing the separator, and leaves the parent and donor
unpinned. -/
theorem c5_redistribute_left_witness :
    2 ≤ 3 ∧ BPT.RedistributeBrother BPT.c5wTree 80 5 =
      .ok (true,
        { pages := [
            (1, .leaf { entries := [(10, 1000), (20, 2000)], parent := 3, next := 2 }),
            (2, .leaf { entries := [(30, 3000), (40, 4000)], parent := 3, next := 4 }),
            (3, .internal { entries := [(0, 1), (30, 2), (50, 4), (60, 5)], parent := -1 }),
            (4, .leaf { entries := [(50, 5000), (55, 5500)], parent := 3, next := 5 }),
            (5, .leaf { entries := [(60, 6000), (70, 7000)], parent := 3, next := -1 })],
          rootPageId := 3, nextPageId := 6, leafMax := 4, internalMax := 4,
          pins := [(3, 0), (4, 0)] }) :=
  ⟨by decide,
    (c5_redistribute_left BPT.c5wTree 80 5
      { entries := [(70, 7000)], parent := 3, next := -1 }
      { entries := [(50, 5000), (55, 5500), (60, 6000)], parent := 3, next := 5 }
      { entries := [(0, 1), (30, 2), (50, 4), (70, 5)], parent := -1 } 3
      rfl (by decide) rfl rfl rfl (by decide) rfl (by decide)).trans rfl⟩

/-- C6 (code bug): in `c6tree` with the iterator at the last entry of leaf 1
(pin counts: leaf 1 pinned once, leaf 2 unpinned), `operator++` moves to the
successor leaf at index 0 but leaves every pin count unchanged: the code
fetches the successor (pin +1) and immediately unpins it again (pin -1), and
it never unpins the leaf it came from.  An increment at a non-final entry
only advances the index, as claimed. -/
theorem c6_iterator_pins :
    BPT.IterInc BPT.c6tree { leafId := 1, keyIndex := 1 } [(1, 1), (2, 0)] =
      .ok ({ leafId := 2, keyIndex := 0 }, [(1, 1), (2, 0)]) ∧
    BPT.IterInc BPT.c6tree { leafId := 2, keyIndex := 0 } [(1, 0), (2, 1)] =
      .ok ({ leafId := 2, keyIndex := 1 }, [(1, 0), (2, 1)]) :=
  ⟨rfl, rfl⟩

/-- C7: inserting keys 1,2,3,4,5 (values 10·key) into an empty (4,4) tree
splits the root leaf once, leaving exactly two leaves [1,2] and [3,4,5]
(the upper half of [1,2,3,4] moved to the new right sibling, chained after
the old leaf, and 5 then joined it); a full iterator scan from `Begin` yields
the five entries in key order. -/
theorem c7_insert_split_scan :
    (BPT.c7run.map (fun t => (t.rootPageId, BPT.lookup t 1, BPT.lookup t 2, BPT.lookup t 3))) =
      .ok (3,
        some (.leaf { entries := [(1, 10), (2, 20)], parent := 3, next := 2 }),
        some (.leaf { entries := [(3, 30), (4, 40), (5, 50)], parent := 3, next := -1 }),
        some (.internal { entries := [(0, 1), (3, 2)], parent := -1 })) ∧
    (BPT.c7run.map (fun t => t.pages.countP (fun p => BPT.isLeaf p.2))) = .ok 2 ∧
    (BPT.c7run.bind BPT.Scan) = .ok [(1, 10), (2, 20), (3, 30), (4, 40), (5, 50)] :=
  ⟨rfl, rfl, rfl⟩
